import Mathlib

/-!
Verification of the SaveAny-Monitor authentication core
(`auth_module.py` and the auth-relevant part of `saveany_server.py`).

Modelling conventions:
* A Python `str` is modelled as a `List Nat` of Unicode code points, so
  `len` coincides with `List.length`.
* Byte strings (`bytes`) are `List Nat` with entries `< 256`.
* JSON values are the inductive `Json` below; Python `dict` order and
  duplicate-key (last-wins, first-position) semantics of `json.loads`
  are modelled faithfully via in-place insertion.
* The cryptographic kernels from Python's standard library
  (`hashlib.pbkdf2_hmac`, `hmac.new(..., sha256)`) are not code of this
  repository; they are abstracted as the `HashFns` record of pure
  functions.  Every property claimed of the repository's code holds for
  an arbitrary choice of those functions.
* Ambient effects (current time, `secrets.token_hex`, `get_machine_id`,
  file contents) are passed as explicit arguments.
-/

set_option maxHeartbeats 1000000

namespace SaveAny

mutual
/-- JSON values, mutually with lists of values and ordered key/value maps
(the shape produced by Python's `json` module restricted to the types this
program serializes: objects, arrays, strings, integers, booleans, null). -/
inductive Json : Type where
  | null : Json
  | bool : Bool → Json
  | num : Int → Json
  | str : List Nat → Json
  | arr : JsonList → Json
  | obj : JsonObj → Json
deriving DecidableEq

inductive JsonList : Type where
  | nil : JsonList
  | cons : Json → JsonList → JsonList
deriving DecidableEq

inductive JsonObj : Type where
  | nil : JsonObj
  | cons : List Nat → Json → JsonObj → JsonObj
deriving DecidableEq
end

/-- Append for `JsonList`. -/
def JsonList.append : JsonList → JsonList → JsonList
  | .nil, ys => ys
  | .cons x xs, ys => .cons x (xs.append ys)

/-- Append for `JsonObj`. -/
def JsonObj.append : JsonObj → JsonObj → JsonObj
  | .nil, ys => ys
  | .cons k v xs, ys => .cons k v (xs.append ys)

/-- The keys of an object, in order. -/
def JsonObj.keys : JsonObj → List (List Nat)
  | .nil => []
  | .cons k _ xs => k :: xs.keys

/-- First binding of a key (Python `dict.__getitem__` / `dict.get`). -/
def JsonObj.lookup : JsonObj → List Nat → Option Json
  | .nil, _ => none
  | .cons k v xs, key => if k = key then some v else xs.lookup key

/-- `dict.get(key, default)`. -/
def JsonObj.getD (o : JsonObj) (key : List Nat) (d : Json) : Json :=
  (o.lookup key).getD d

/-- Insertion with Python `dict` semantics: an existing key keeps its
position and gets the new value, a new key is appended at the end. -/
def JsonObj.insert : JsonObj → List Nat → Json → JsonObj
  | .nil, key, v => .cons key v .nil
  | .cons k w xs, key, v =>
      if k = key then .cons k v xs else .cons k w (xs.insert key v)

/-- Python truthiness of a decoded JSON value (`if data:`). -/
def jsonTruthy : Json → Bool
  | .null => false
  | .bool b => b
  | .num n => n != 0
  | .str s => !s.isEmpty
  | .arr .nil => false
  | .arr (.cons _ _) => true
  | .obj .nil => false
  | .obj (.cons _ _ _) => true

/-- Code points of a Lean string literal, used for the fixed keys and
constants appearing in the source. -/
def cp (s : String) : List Nat := s.data.map Char.toNat

/-! ### Serialization: model of `json.dumps(..., ensure_ascii=False)`
with the default separators `", "` and `": "`. -/

/-- Lower-case hex digit. -/
def hexChr (n : Nat) : Nat := if n < 10 then 48 + n else 87 + n

/-- JSON escaping of one code point, as `json.dumps` with
`ensure_ascii=False` produces it: short escapes for the characters having
one, `\u00xx` for the remaining control characters, everything else
verbatim. -/
def escChar (c : Nat) : List Nat :=
  if c = 34 then [92, 34]
  else if c = 92 then [92, 92]
  else if c = 8 then [92, 98]
  else if c = 9 then [92, 116]
  else if c = 10 then [92, 110]
  else if c = 12 then [92, 102]
  else if c = 13 then [92, 114]
  else if c < 32 then [92, 117, 48, 48, hexChr (c / 16), hexChr (c % 16)]
  else [c]

/-- A JSON string literal: quote, escaped content, quote. -/
def dumpString (s : List Nat) : List Nat :=
  34 :: (s.flatMap escChar ++ [34])

/-- Decimal digits of a natural number, most significant first (`"0"` for
zero), as code points. -/
def natDigitsBE (n : Nat) : List Nat :=
  if n = 0 then [48] else (Nat.digits 10 n).reverse.map (· + 48)

/-- Python `repr` of an `int`, as `json.dumps` prints it. -/
def dumpInt (n : Int) : List Nat :=
  if n < 0 then 45 :: natDigitsBE n.natAbs else natDigitsBE n.natAbs

mutual
/-- Model of `json.dumps(x, ensure_ascii=False)`: the serialized code
points of a JSON value. -/
def dumps : Json → List Nat
  | .null => [110, 117, 108, 108]
  | .bool true => [116, 114, 117, 101]
  | .bool false => [102, 97, 108, 115, 101]
  | .num n => dumpInt n
  | .str s => dumpString s
  | .arr .nil => [91, 93]
  | .arr (.cons x xs) => 91 :: (dumps x ++ dumpsArrTail xs)
  | .obj .nil => [123, 125]
  | .obj (.cons k v kvs) =>
      123 :: (dumpString k ++ [58, 32] ++ dumps v ++ dumpsObjTail kvs)

/-- Remaining array elements: `", "`-separated, closed by `]`. -/
def dumpsArrTail : JsonList → List Nat
  | .nil => [93]
  | .cons x xs => 44 :: 32 :: (dumps x ++ dumpsArrTail xs)

/-- Remaining object entries: `", "`-separated `"key": value` pairs,
closed by ``}``. -/
def dumpsObjTail : JsonObj → List Nat
  | .nil => [125]
  | .cons k v kvs =>
      44 :: 32 :: (dumpString k ++ [58, 32] ++ dumps v ++ dumpsObjTail kvs)
end

/-! ### Parsing: model of `json.loads` (strict mode) on the fragment of
JSON this program produces.  Floating point literals are outside the
model and are rejected. -/

/-- JSON whitespace. -/
def isWs (c : Nat) : Bool := c = 32 || c = 9 || c = 10 || c = 13

/-- Skip leading whitespace. -/
def skipWs : List Nat → List Nat
  | [] => []
  | c :: r => if isWs c then skipWs r else c :: r

/-- ASCII decimal digit test. -/
def isDigit (c : Nat) : Bool := 48 ≤ c && c ≤ 57

/-- Value of a hex digit code point. -/
def hexVal (c : Nat) : Option Nat :=
  if 48 ≤ c && c ≤ 57 then some (c - 48)
  else if 97 ≤ c && c ≤ 102 then some (c - 87)
  else if 65 ≤ c && c ≤ 70 then some (c - 55)
  else none

/-- Body of a string literal, after the opening quote.  Returns the
decoded code points and the input remaining after the closing quote.
Raw control characters are rejected (`json.loads` strict mode). -/
def parseStringRest : List Nat → Option (List Nat × List Nat)
  | [] => none
  | c :: r =>
    if c = 34 then some ([], r)
    else if c = 92 then
      match r with
      | [] => none
      | e :: r2 =>
        if e = 34 then (parseStringRest r2).map (fun p => (34 :: p.1, p.2))
        else if e = 92 then (parseStringRest r2).map (fun p => (92 :: p.1, p.2))
        else if e = 47 then (parseStringRest r2).map (fun p => (47 :: p.1, p.2))
        else if e = 98 then (parseStringRest r2).map (fun p => (8 :: p.1, p.2))
        else if e = 102 then (parseStringRest r2).map (fun p => (12 :: p.1, p.2))
        else if e = 110 then (parseStringRest r2).map (fun p => (10 :: p.1, p.2))
        else if e = 114 then (parseStringRest r2).map (fun p => (13 :: p.1, p.2))
        else if e = 116 then (parseStringRest r2).map (fun p => (9 :: p.1, p.2))
        else if e = 117 then
          match r2 with
          | h1 :: h2 :: h3 :: h4 :: r3 =>
            match hexVal h1, hexVal h2, hexVal h3, hexVal h4 with
            | some a, some b, some c3, some d =>
                (parseStringRest r3).map
                  (fun p => ((((a * 16 + b) * 16 + c3) * 16 + d) :: p.1, p.2))
            | _, _, _, _ => none
          | _ => none
        else none
    else if c < 32 then none
    else (parseStringRest r).map (fun p => (c :: p.1, p.2))

/-- Accumulating decimal-digit scan. -/
def parseDigits (acc : Nat) : List Nat → Nat × List Nat
  | [] => (acc, [])
  | c :: r =>
    if isDigit c then parseDigits (acc * 10 + (c - 48)) r else (acc, c :: r)

/-- Continuation after the integer digits of a number literal: reject the
float forms (`.`/`e`), which are outside the model. -/
def parseNumAfter (neg : Bool) (p : Nat × List Nat) : Option (Json × List Nat) :=
  match p.2 with
  | [] => some (.num (if neg then -(p.1 : Int) else (p.1 : Int)), p.2)
  | e :: _ =>
    if e = 46 || e = 101 || e = 69 then none
    else some (.num (if neg then -(p.1 : Int) else (p.1 : Int)), p.2)

/-- A number literal.  Fractional/exponent forms (floats) are not part of
the model and yield `none`. -/
def parseNumber : List Nat → Option (Json × List Nat)
  | [] => none
  | c :: r =>
    if c = 45 then
      match r with
      | [] => none
      | d :: r2 =>
        if isDigit d then parseNumAfter true (parseDigits (d - 48) r2)
        else none
    else if isDigit c then parseNumAfter false (parseDigits (c - 48) r)
    else none

mutual
/-- Recursive-descent JSON value parser, fuelled to make the mutual
recursion structural.  `loads` below supplies sufficient fuel. -/
def parseValue : Nat → List Nat → Option (Json × List Nat)
  | 0, _ => none
  | f + 1, s =>
    match skipWs s with
    | [] => none
    | c :: r =>
      if c = 123 then parseObjBody f r
      else if c = 91 then parseArrBody f r
      else if c = 34 then (parseStringRest r).map (fun p => (.str p.1, p.2))
      else if c = 116 then
        match r with
        | 114 :: 117 :: 101 :: r2 => some (.bool true, r2)
        | _ => none
      else if c = 102 then
        match r with
        | 97 :: 108 :: 115 :: 101 :: r2 => some (.bool false, r2)
        | _ => none
      else if c = 110 then
        match r with
        | 117 :: 108 :: 108 :: r2 => some (.null, r2)
        | _ => none
      else parseNumber (c :: r)

/-- After an opening `[`: empty array or first element then tail. -/
def parseArrBody : Nat → List Nat → Option (Json × List Nat)
  | 0, _ => none
  | f + 1, s =>
    match skipWs s with
    | [] => none
    | c :: r =>
      if c = 93 then some (.arr .nil, r)
      else
        match parseValue f (c :: r) with
        | none => none
        | some (v, s3) => parseArrTail f (.cons v .nil) s3

/-- After an array element: `]` closes, `,` continues.  Elements
accumulate in order. -/
def parseArrTail : Nat → JsonList → List Nat → Option (Json × List Nat)
  | 0, _, _ => none
  | f + 1, acc, s =>
    match skipWs s with
    | [] => none
    | c :: r =>
      if c = 93 then some (.arr acc, r)
      else if c = 44 then
        match parseValue f r with
        | none => none
        | some (v, s3) => parseArrTail f (acc.append (.cons v .nil)) s3
      else none

/-- After an opening `{`: empty object or first entry then tail. -/
def parseObjBody : Nat → List Nat → Option (Json × List Nat)
  | 0, _ => none
  | f + 1, s =>
    match skipWs s with
    | [] => none
    | c :: r =>
      if c = 125 then some (.obj .nil, r)
      else if c = 34 then
        match parseStringRest r with
        | none => none
        | some (k, s1) =>
          match skipWs s1 with
          | 58 :: s2 =>
            match parseValue f s2 with
            | none => none
            | some (v, s3) => parseObjTail f (JsonObj.nil.insert k v) s3
          | _ => none
      else none

/-- After an object entry: ``}`` closes, `,` continues.  Entries are
inserted with Python `dict` update semantics. -/
def parseObjTail : Nat → JsonObj → List Nat → Option (Json × List Nat)
  | 0, _, _ => none
  | f + 1, acc, s =>
    match skipWs s with
    | [] => none
    | c :: r =>
      if c = 125 then some (.obj acc, r)
      else if c = 44 then
        match skipWs r with
        | 34 :: r2 =>
          match parseStringRest r2 with
          | none => none
          | some (k, s1) =>
            match skipWs s1 with
            | 58 :: s2 =>
              match parseValue f s2 with
              | none => none
              | some (v, s3) => parseObjTail f (acc.insert k v) s3
            | _ => none
        | _ => none
      else none
end

/-- Model of `json.loads`: parse one value, require only whitespace to
follow (`Extra data` otherwise). -/
def loads (s : List Nat) : Option Json :=
  match parseValue (s.length + 1) s with
  | some (v, rest) => if skipWs rest = [] then some v else none
  | none => none

/-! ### Well-formedness and size measures used by the round-trip proof -/

/-- Membership of a key in an object. -/
def keyMem (k : List Nat) : JsonObj → Bool
  | .nil => false
  | .cons k2 _ kvs => if k2 = k then true else keyMem k kvs

/-- No key occurs twice. -/
def objKeysNodupB : JsonObj → Bool
  | .nil => true
  | .cons k _ kvs => !keyMem k kvs && objKeysNodupB kvs

mutual
/-- Every object in the value has pairwise distinct keys (automatic for
payloads coming from Python `dict`s). -/
def jsonKeysOK : Json → Bool
  | .null => true
  | .bool _ => true
  | .num _ => true
  | .str _ => true
  | .arr xs => jsonListKeysOK xs
  | .obj kvs => objKeysNodupB kvs && jsonObjKeysOK kvs

def jsonListKeysOK : JsonList → Bool
  | .nil => true
  | .cons x xs => jsonKeysOK x && jsonListKeysOK xs

def jsonObjKeysOK : JsonObj → Bool
  | .nil => true
  | .cons _ v kvs => jsonKeysOK v && jsonObjKeysOK kvs
end

mutual
/-- Fuel measure for the parser. -/
def jsize : Json → Nat
  | .null => 1
  | .bool _ => 1
  | .num _ => 1
  | .str _ => 1
  | .arr xs => 1 + jsizeL xs
  | .obj kvs => 1 + jsizeO kvs

def jsizeL : JsonList → Nat
  | .nil => 0
  | .cons x xs => 1 + jsize x + jsizeL xs

def jsizeO : JsonObj → Nat
  | .nil => 0
  | .cons _ v kvs => 1 + jsize v + jsizeO kvs
end

/-- The code points that may follow a serialized number without changing
how it lexes. -/
def numStop : List Nat → Bool
  | [] => true
  | c :: _ => !(isDigit c || c = 46 || c = 101 || c = 69)

/-! ### Round-trip: the parser recovers exactly what the printer wrote -/

theorem hexVal_hexChr (d : Nat) (h : d < 16) : hexVal (hexChr d) = some d := by
  interval_cases d <;> rfl

theorem parseStringRest_dump (s : List Nat) (rest : List Nat) :
    parseStringRest (s.flatMap escChar ++ (34 :: rest)) = some (s, rest) := by
  induction s with
  | nil => rw [parseStringRest.eq_def]; simp
  | cons c s ih =>
    have step : (c :: s).flatMap escChar ++ 34 :: rest =
        escChar c ++ (s.flatMap escChar ++ 34 :: rest) := by simp
    rw [step]
    by_cases h34 : c = 34
    · subst h34
      rw [show escChar 34 = [92, 34] from rfl, List.cons_append,
        List.cons_append, parseStringRest.eq_def]
      simp [ih]
    · by_cases h92 : c = 92
      · subst h92
        rw [show escChar 92 = [92, 92] from rfl, List.cons_append,
          List.cons_append, parseStringRest.eq_def]
        simp [ih]
      · by_cases h8 : c = 8
        · subst h8
          rw [show escChar 8 = [92, 98] from rfl, List.cons_append,
            List.cons_append, parseStringRest.eq_def]
          simp [ih]
        · by_cases h9 : c = 9
          · subst h9
            rw [show escChar 9 = [92, 116] from rfl, List.cons_append,
              List.cons_append, parseStringRest.eq_def]
            simp [ih]
          · by_cases h10 : c = 10
            · subst h10
              rw [show escChar 10 = [92, 110] from rfl, List.cons_append,
                List.cons_append, parseStringRest.eq_def]
              simp [ih]
            · by_cases h12 : c = 12
              · subst h12
                rw [show escChar 12 = [92, 102] from rfl, List.cons_append,
                  List.cons_append, parseStringRest.eq_def]
                simp [ih]
              · by_cases h13 : c = 13
                · subst h13
                  rw [show escChar 13 = [92, 114] from rfl, List.cons_append,
                    List.cons_append, parseStringRest.eq_def]
                  simp [ih]
                · by_cases hc : c < 32
                  · have hesc : escChar c =
                        [92, 117, 48, 48, hexChr (c / 16), hexChr (c % 16)] := by
                      simp [escChar, h34, h92, h8, h9, h10, h12, h13, hc]
                    rw [hesc]
                    simp only [List.cons_append, List.nil_append]
                    rw [parseStringRest.eq_def]
                    have hd1 : c / 16 < 16 := by omega
                    have hd2 : c % 16 < 16 := by omega
                    simp only [reduceIte, hexVal_hexChr _ hd1,
                      hexVal_hexChr _ hd2]
                    rw [show hexVal 48 = some 0 from rfl]
                    simp only [ih, Option.map_some]
                    simp
                    omega
                  · have hesc : escChar c = [c] := by
                      simp [escChar, h34, h92, h8, h9, h10, h12, h13, hc]
                    rw [hesc]
                    simp only [List.cons_append, List.nil_append]
                    rw [parseStringRest.eq_def]
                    simp [h34, h92, hc, ih]

theorem parseDigits_append (ds rest : List Nat) (acc : Nat)
    (hds : ∀ d ∈ ds, isDigit d = true)
    (hrest : ∀ c ∈ rest.head?, isDigit c = false) :
    parseDigits acc (ds ++ rest) =
      (ds.foldl (fun a c => a * 10 + (c - 48)) acc, rest) := by
  induction ds generalizing acc with
  | nil =>
    cases rest with
    | nil => rfl
    | cons c r =>
      have := hrest c rfl
      simp [parseDigits, this]
  | cons d ds ih =>
    have hd := hds d (by simp)
    simp only [List.cons_append, parseDigits, hd, if_pos, List.append_eq]
    rw [ih _ (fun x hx => hds x (by simp [hx]))]
    rfl

theorem natDigitsBE_all_digits (n : Nat) :
    ∀ d ∈ natDigitsBE n, isDigit d = true := by
  intro d hd
  unfold natDigitsBE at hd
  by_cases h0 : n = 0
  · simp [h0] at hd; simp [hd, isDigit]
  · rw [if_neg h0] at hd
    simp only [List.mem_map, List.mem_reverse] at hd
    obtain ⟨e, he, rfl⟩ := hd
    have : e < 10 := Nat.digits_lt_base (by norm_num) he
    simp [isDigit]
    omega

theorem natDigitsBE_ne_nil (n : Nat) : natDigitsBE n ≠ [] := by
  unfold natDigitsBE
  by_cases h0 : n = 0
  · simp [h0]
  · rw [if_neg h0]
    simp [Nat.digits_ne_nil_iff_ne_zero, h0]

theorem foldl_base10 (l : List Nat) (acc : Nat) :
    l.reverse.foldl (fun a d => a * 10 + d) acc =
      acc * 10 ^ l.length + Nat.ofDigits 10 l := by
  induction l generalizing acc with
  | nil => simp
  | cons d l ih =>
    simp only [List.reverse_cons, List.foldl_append, List.foldl_cons,
      List.foldl_nil, ih, Nat.ofDigits_cons, List.length_cons]
    ring

theorem foldl_natDigitsBE (n : Nat) :
    (natDigitsBE n).foldl (fun a c => a * 10 + (c - 48)) 0 = n := by
  unfold natDigitsBE
  by_cases h0 : n = 0
  · simp [h0]
  · rw [if_neg h0]
    rw [List.foldl_map]
    have : ∀ (acc : Nat) (l : List Nat),
        l.foldl (fun a c => a * 10 + (c + 48 - 48)) acc =
          l.foldl (fun a d => a * 10 + d) acc := by
      intro acc l
      induction l generalizing acc with
      | nil => rfl
      | cons x l ih => simp only [List.foldl_cons, Nat.add_sub_cancel, ih]
    rw [this, foldl_base10, Nat.ofDigits_digits]
    simp

theorem parseNumAfter_stop (neg : Bool) (m : Nat) (rest : List Nat)
    (hrest : numStop rest = true) :
    parseNumAfter neg (m, rest) =
      some (.num (if neg then -(m : Int) else (m : Int)), rest) := by
  cases rest with
  | nil => rfl
  | cons e rs =>
    simp only [numStop, Bool.not_eq_true', Bool.or_eq_false_iff,
      decide_eq_false_iff_not] at hrest
    obtain ⟨⟨⟨hd, h46⟩, h101⟩, h69⟩ := hrest
    simp [parseNumAfter, h46, h101, h69]

theorem parseNumber_dump (n : Int) (rest : List Nat)
    (hrest : numStop rest = true) :
    parseNumber (dumpInt n ++ rest) = some (.num n, rest) := by
  have hstop : ∀ c ∈ rest.head?, isDigit c = false := by
    intro c hc
    cases rest with
    | nil => simp at hc
    | cons r rs =>
      simp only [List.head?_cons, Option.mem_def, Option.some.injEq] at hc
      subst hc
      simp only [numStop, Bool.not_eq_true', Bool.or_eq_false_iff,
        decide_eq_false_iff_not] at hrest
      exact hrest.1.1.1
  obtain ⟨c, cs, hcs⟩ : ∃ c cs, natDigitsBE n.natAbs = c :: cs := by
    cases h : natDigitsBE n.natAbs with
    | nil => exact absurd h (natDigitsBE_ne_nil _)
    | cons c cs => exact ⟨c, cs, rfl⟩
  have hcdig : isDigit c = true := natDigitsBE_all_digits n.natAbs c
    (by rw [hcs]; exact List.mem_cons_self _ _)
  have hc45 : c ≠ 45 := by
    simp only [isDigit, Bool.and_eq_true, decide_eq_true_eq] at hcdig
    omega
  have hfold : parseDigits (c - 48) (cs ++ rest) = (n.natAbs, rest) := by
    have h1 := parseDigits_append (c :: cs) rest 0
      (by rw [← hcs]; exact natDigitsBE_all_digits _) hstop
    have h2 : parseDigits 0 ((c :: cs) ++ rest) =
        parseDigits (0 * 10 + (c - 48)) (cs ++ rest) := by
      simp [parseDigits, hcdig]
    rw [h2] at h1
    simp only [Nat.zero_mul, Nat.zero_add] at h1
    rw [h1]
    have h3 : (c :: cs).foldl (fun a x => a * 10 + (x - 48)) 0 = n.natAbs := by
      rw [← hcs, foldl_natDigitsBE]
    simp [h3]
  by_cases hneg : n < 0
  · have hdi : dumpInt n = 45 :: (c :: cs) := by
      simp [dumpInt, hneg, hcs]
    rw [hdi]
    simp only [List.cons_append, parseNumber, if_pos rfl, hcdig, if_pos]
    rw [hfold, parseNumAfter_stop true _ _ hrest]
    simp [abs_of_neg hneg]
  · have hdi : dumpInt n = c :: cs := by
      simp [dumpInt, hneg, hcs]
    rw [hdi]
    simp only [List.cons_append, parseNumber, if_neg hc45, hcdig, if_pos]
    rw [hfold, parseNumAfter_stop false _ _ hrest]
    simp [abs_of_nonneg (by omega : (0 : Int) ≤ n)]

theorem JsonList.append_nil : (xs : JsonList) → xs.append .nil = xs
  | .nil => rfl
  | .cons x xs => by simp [JsonList.append, JsonList.append_nil xs]

theorem JsonList.append_cons : (acc : JsonList) → (y : Json) →
    (ys : JsonList) →
    (acc.append (.cons y .nil)).append ys = acc.append (.cons y ys)
  | .nil, y, ys => rfl
  | .cons x xs, y, ys => by
    simp [JsonList.append, JsonList.append_cons xs y ys]

theorem JsonObj.appendO_nil : (xs : JsonObj) → xs.append .nil = xs
  | .nil => rfl
  | .cons k v xs => by simp [JsonObj.append, JsonObj.appendO_nil xs]

theorem JsonObj.appendO_cons : (acc : JsonObj) → (k : List Nat) →
    (v : Json) → (kvs : JsonObj) →
    (acc.append (.cons k v .nil)).append kvs = acc.append (.cons k v kvs)
  | .nil, k, v, kvs => rfl
  | .cons k2 v2 xs, k, v, kvs => by
    simp [JsonObj.append, JsonObj.appendO_cons xs k v kvs]

theorem JsonObj.insert_not_mem : (acc : JsonObj) → (k : List Nat) →
    (v : Json) → keyMem k acc = false →
    acc.insert k v = acc.append (.cons k v .nil)
  | .nil, k, v, _ => rfl
  | .cons k2 v2 xs, k, v, h => by
    simp only [keyMem] at h
    by_cases hk : k2 = k
    · simp [hk] at h
    · simp only [JsonObj.insert, JsonObj.append, if_neg hk]
      rw [JsonObj.insert_not_mem xs k v (by simpa [hk] using h)]

theorem keyMem_append (k : List Nat) : (a : JsonObj) → (b : JsonObj) →
    keyMem k (a.append b) = (keyMem k a || keyMem k b)
  | .nil, b => by simp [JsonObj.append, keyMem]
  | .cons k2 v xs, b => by
    by_cases hk : k2 = k
    · simp [JsonObj.append, keyMem, hk]
    · simp [JsonObj.append, keyMem, hk, keyMem_append k xs b]

theorem nodupB_not_mem (k : List Nat) (v : Json) (kvs : JsonObj) :
    (acc : JsonObj) →
    objKeysNodupB (acc.append (.cons k v kvs)) = true →
    keyMem k acc = false
  | .nil, _ => rfl
  | .cons k2 v2 xs, h => by
    simp only [JsonObj.append, objKeysNodupB, Bool.and_eq_true,
      Bool.not_eq_true'] at h
    obtain ⟨h1, h2⟩ := h
    rw [keyMem_append] at h1
    simp only [Bool.or_eq_false_iff] at h1
    have hk2 : keyMem k2 (.cons k v kvs) = false := h1.2
    simp only [keyMem] at hk2
    by_cases hk : k = k2
    · simp [hk] at hk2
    · simp only [keyMem]
      rw [if_neg (fun he => hk he.symm)]
      exact nodupB_not_mem k v kvs xs h2

theorem skipWs_nws {c : Nat} (r : List Nat) (h : isWs c = false) :
    skipWs (c :: r) = c :: r := by
  rw [skipWs.eq_def]
  simp [h]

theorem skipWs_ws {c : Nat} (r : List Nat) (h : isWs c = true) :
    skipWs (c :: r) = skipWs r := by
  rw [skipWs.eq_def]
  simp [h]

theorem parseValue_ws32 (f : Nat) (s : List Nat) :
    parseValue f (32 :: s) = parseValue f s := by
  cases f with
  | zero => rfl
  | succ g =>
    simp only [parseValue]
    rw [skipWs_ws s (by rfl)]

/-- The code points a serialized value can start with. -/
def headOK (c : Nat) : Prop :=
  c = 123 ∨ c = 91 ∨ c = 34 ∨ c = 116 ∨ c = 102 ∨ c = 110 ∨ c = 45 ∨
    (48 ≤ c ∧ c ≤ 57)

theorem dumpInt_cons (n : Int) :
    ∃ c cs, dumpInt n = c :: cs ∧ (c = 45 ∨ isDigit c = true) := by
  obtain ⟨c, cs, hcs⟩ : ∃ c cs, natDigitsBE n.natAbs = c :: cs := by
    cases h : natDigitsBE n.natAbs with
    | nil => exact absurd h (natDigitsBE_ne_nil _)
    | cons c cs => exact ⟨c, cs, rfl⟩
  have hdig : isDigit c = true := natDigitsBE_all_digits n.natAbs c
    (by rw [hcs]; exact List.mem_cons_self _ _)
  by_cases hneg : n < 0
  · exact ⟨45, c :: cs, by simp [dumpInt, hneg, hcs], Or.inl rfl⟩
  · exact ⟨c, cs, by simp [dumpInt, hneg, hcs], Or.inr hdig⟩

theorem dumps_cons (x : Json) :
    ∃ c cs, dumps x = c :: cs ∧ headOK c := by
  cases x with
  | null => exact ⟨110, [117, 108, 108], rfl, by simp [headOK]⟩
  | bool b =>
    cases b with
    | true => exact ⟨116, [114, 117, 101], rfl, by simp [headOK]⟩
    | false => exact ⟨102, [97, 108, 115, 101], rfl, by simp [headOK]⟩
  | num n =>
    obtain ⟨c, cs, hcs, hc⟩ := dumpInt_cons n
    refine ⟨c, cs, by simp [dumps, hcs], ?_⟩
    rcases hc with h | h
    · simp [headOK, h]
    · simp only [isDigit, Bool.and_eq_true, decide_eq_true_eq] at h
      simp [headOK]
      omega
  | str s =>
    exact ⟨34, s.flatMap escChar ++ [34], by simp [dumps, dumpString],
      by simp [headOK]⟩
  | arr xs =>
    cases xs with
    | nil => exact ⟨91, [93], rfl, by simp [headOK]⟩
    | cons y ys =>
      exact ⟨91, dumps y ++ dumpsArrTail ys, by simp [dumps], by simp [headOK]⟩
  | obj kvs =>
    cases kvs with
    | nil => exact ⟨123, [125], rfl, by simp [headOK]⟩
    | cons k v kvs =>
      exact ⟨123, dumpString k ++ [58, 32] ++ dumps v ++ dumpsObjTail kvs,
        by simp [dumps], by simp [headOK]⟩

theorem headOK_not_ws {c : Nat} (h : headOK c) : isWs c = false := by
  simp only [headOK] at h
  simp only [isWs, Bool.or_eq_false_iff, decide_eq_false_iff_not]
  omega

theorem headOK_ne {c : Nat} (h : headOK c) : c ≠ 93 ∧ c ≠ 44 ∧ c ≠ 125 := by
  simp only [headOK] at h
  omega

theorem numStop_arrTail (xs : JsonList) (rest : List Nat) :
    numStop (dumpsArrTail xs ++ rest) = true := by
  cases xs with
  | nil => rfl
  | cons y ys => rfl

theorem numStop_objTail (kvs : JsonObj) (rest : List Nat) :
    numStop (dumpsObjTail kvs ++ rest) = true := by
  cases kvs with
  | nil => rfl
  | cons k v kvs => rfl

theorem jsize_pos (x : Json) : 1 ≤ jsize x := by
  cases x <;> simp [jsize]

mutual
theorem rt_value : (x : Json) → (f : Nat) → (rest : List Nat) →
    jsonKeysOK x = true → jsize x < f → numStop rest = true →
    parseValue f (dumps x ++ rest) = some (x, rest)
  | .null, f, rest, _, hf, _ => by
    cases f with
    | zero => simp [jsize] at hf
    | succ g =>
      simp only [dumps, List.cons_append, List.nil_append, parseValue]
      rw [skipWs_nws _ (by rfl)]
      simp
  | .bool true, f, rest, _, hf, _ => by
    cases f with
    | zero => simp [jsize] at hf
    | succ g =>
      simp only [dumps, List.cons_append, List.nil_append, parseValue]
      rw [skipWs_nws _ (by rfl)]
      simp
  | .bool false, f, rest, _, hf, _ => by
    cases f with
    | zero => simp [jsize] at hf
    | succ g =>
      simp only [dumps, List.cons_append, List.nil_append, parseValue]
      rw [skipWs_nws _ (by rfl)]
      simp
  | .num n, f, rest, _, hf, hstop => by
    cases f with
    | zero => simp [jsize] at hf
    | succ g =>
      obtain ⟨c, cs, hcs, hc⟩ := dumpInt_cons n
      have hc2 : c = 45 ∨ (48 ≤ c ∧ c ≤ 57) := by
        rcases hc with h | h
        · exact Or.inl h
        · simp only [isDigit, Bool.and_eq_true, decide_eq_true_eq] at h
          exact Or.inr h
      have hnws : isWs c = false := by
        simp only [isWs, Bool.or_eq_false_iff, decide_eq_false_iff_not]
        omega
      simp only [dumps]
      rw [hcs]
      simp only [List.cons_append, parseValue]
      rw [skipWs_nws _ hnws]
      simp only []
      rw [if_neg (by omega : ¬c = 123), if_neg (by omega : ¬c = 91),
        if_neg (by omega : ¬c = 34), if_neg (by omega : ¬c = 116),
        if_neg (by omega : ¬c = 102), if_neg (by omega : ¬c = 110),
        ← List.cons_append, ← hcs]
      exact parseNumber_dump n rest hstop
  | .str s, f, rest, _, hf, _ => by
    cases f with
    | zero => simp [jsize] at hf
    | succ g =>
      simp only [dumps, dumpString, List.cons_append, List.append_assoc,
        List.singleton_append, parseValue]
      rw [skipWs_nws _ (by rfl)]
      simp only []
      rw [if_neg (by omega : ¬(34 : Nat) = 123),
        if_neg (by omega : ¬(34 : Nat) = 91)]
      simp only [eq_self_iff_true, if_true]
      rw [parseStringRest_dump]
      rfl
  | .arr .nil, f, rest, _, hf, _ => by
    cases f with
    | zero => simp [jsize, jsizeL] at hf
    | succ g =>
      cases g with
      | zero => simp [jsize, jsizeL] at hf
      | succ h =>
        simp only [dumps, List.cons_append, List.nil_append, parseValue]
        rw [skipWs_nws _ (by rfl)]
        simp only []
        rw [if_neg (by omega : ¬(91 : Nat) = 123)]
        simp only [eq_self_iff_true, if_true]
        simp only [parseArrBody]
        rw [skipWs_nws _ (by rfl)]
        simp
  | .arr (.cons y ys), f, rest, hok, hf, hstop => by
    simp only [jsonKeysOK, jsonListKeysOK, Bool.and_eq_true] at hok
    simp only [jsize, jsizeL] at hf
    have hy := jsize_pos y
    cases f with
    | zero => omega
    | succ g =>
      cases g with
      | zero => omega
      | succ h =>
        simp only [dumps, List.cons_append, List.append_assoc, parseValue]
        rw [skipWs_nws _ (by rfl)]
        simp only []
        rw [if_neg (by omega : ¬(91 : Nat) = 123)]
        simp only [eq_self_iff_true, if_true]
        simp only [parseArrBody]
        obtain ⟨c, cs, hcs, hOK⟩ := dumps_cons y
        have hne := headOK_ne hOK
        rw [hcs]
        simp only [List.cons_append]
        rw [skipWs_nws _ (headOK_not_ws hOK)]
        simp only []
        rw [if_neg hne.1, ← List.cons_append, ← hcs]
        rw [rt_value y h (dumpsArrTail ys ++ rest) hok.1 (by omega)
          (numStop_arrTail ys rest)]
        simp only []
        rw [rt_arrTail ys h (.cons y .nil) rest hok.2 (by omega) hstop]
        simp [JsonList.append]
  | .obj .nil, f, rest, _, hf, _ => by
    cases f with
    | zero => simp [jsize, jsizeO] at hf
    | succ g =>
      cases g with
      | zero => simp [jsize, jsizeO] at hf
      | succ h =>
        simp only [dumps, List.cons_append, List.nil_append, parseValue]
        rw [skipWs_nws _ (by rfl)]
        simp only []
        simp only [eq_self_iff_true, if_true]
        simp only [parseObjBody]
        rw [skipWs_nws _ (by rfl)]
        simp
  | .obj (.cons k v kvs), f, rest, hok, hf, hstop => by
    simp only [jsonKeysOK, jsonObjKeysOK, Bool.and_eq_true] at hok
    obtain ⟨hnod, hkv, hkvs⟩ := hok
    simp only [jsize, jsizeO] at hf
    have hv := jsize_pos v
    cases f with
    | zero => omega
    | succ g =>
      cases g with
      | zero => omega
      | succ h =>
        simp only [dumps, dumpString, List.cons_append, List.append_assoc,
          List.singleton_append, List.nil_append, parseValue]
        rw [skipWs_nws _ (by rfl)]
        simp only []
        simp only [eq_self_iff_true, if_true]
        simp only [parseObjBody]
        rw [skipWs_nws _ (by rfl)]
        simp only []
        rw [if_neg (by omega : ¬(34 : Nat) = 125)]
        simp only [eq_self_iff_true, if_true]
        rw [parseStringRest_dump]
        simp only []
        rw [skipWs_nws _ (by rfl)]
        simp only []
        rw [parseValue_ws32]
        rw [rt_value v h (dumpsObjTail kvs ++ rest) hkv (by omega)
          (numStop_objTail kvs rest)]
        simp only []
        have hins : JsonObj.insert .nil k v = .cons k v .nil := rfl
        rw [hins]
        rw [rt_objTail kvs h (.cons k v .nil) rest hkvs
          (by simpa [JsonObj.append] using hnod) (by omega) hstop]
        simp [JsonObj.append]

theorem rt_arrTail : (xs : JsonList) → (f : Nat) → (acc : JsonList) →
    (rest : List Nat) → jsonListKeysOK xs = true → jsizeL xs < f →
    numStop rest = true →
    parseArrTail f acc (dumpsArrTail xs ++ rest) =
      some (.arr (acc.append xs), rest)
  | .nil, f, acc, rest, _, hf, _ => by
    cases f with
    | zero => simp [jsizeL] at hf
    | succ g =>
      simp only [dumpsArrTail, List.cons_append, List.nil_append, parseArrTail]
      rw [skipWs_nws _ (by rfl)]
      simp [JsonList.append_nil]
  | .cons y ys, f, acc, rest, hok, hf, hstop => by
    simp only [jsonListKeysOK, Bool.and_eq_true] at hok
    simp only [jsizeL] at hf
    cases f with
    | zero => omega
    | succ g =>
      simp only [dumpsArrTail, List.cons_append, List.append_assoc,
        parseArrTail]
      rw [skipWs_nws _ (by rfl)]
      simp only []
      rw [if_neg (by omega : ¬(44 : Nat) = 93)]
      simp only [eq_self_iff_true, if_true]
      rw [parseValue_ws32]
      rw [rt_value y g (dumpsArrTail ys ++ rest) hok.1 (by omega)
        (numStop_arrTail ys rest)]
      simp only []
      rw [rt_arrTail ys g (acc.append (.cons y .nil)) rest hok.2 (by omega)
        hstop]
      rw [JsonList.append_cons]

theorem rt_objTail : (kvs : JsonObj) → (f : Nat) → (acc : JsonObj) →
    (rest : List Nat) → jsonObjKeysOK kvs = true →
    objKeysNodupB (acc.append kvs) = true → jsizeO kvs < f →
    numStop rest = true →
    parseObjTail f acc (dumpsObjTail kvs ++ rest) =
      some (.obj (acc.append kvs), rest)
  | .nil, f, acc, rest, _, _, hf, _ => by
    cases f with
    | zero => simp [jsizeO] at hf
    | succ g =>
      simp only [dumpsObjTail, List.cons_append, List.nil_append, parseObjTail]
      rw [skipWs_nws _ (by rfl)]
      simp [JsonObj.appendO_nil]
  | .cons k v kvs, f, acc, rest, hok, hnod, hf, hstop => by
    simp only [jsonObjKeysOK, Bool.and_eq_true] at hok
    simp only [jsizeO] at hf
    cases f with
    | zero => omega
    | succ g =>
      simp only [dumpsObjTail, dumpString, List.cons_append, List.append_assoc,
        List.singleton_append, List.nil_append, parseObjTail]
      rw [skipWs_nws _ (by rfl)]
      simp only []
      rw [if_neg (by omega : ¬(44 : Nat) = 125)]
      simp only [eq_self_iff_true, if_true]
      rw [skipWs_ws _ (by rfl), skipWs_nws _ (by rfl)]
      simp only []
      rw [parseStringRest_dump]
      simp only []
      rw [skipWs_nws _ (by rfl)]
      simp only []
      rw [parseValue_ws32]
      rw [rt_value v g (dumpsObjTail kvs ++ rest) hok.1 (by omega)
        (numStop_objTail kvs rest)]
      simp only []
      have hmem : keyMem k acc = false := nodupB_not_mem k v kvs acc hnod
      rw [JsonObj.insert_not_mem acc k v hmem]
      rw [rt_objTail kvs g (acc.append (.cons k v .nil)) rest hok.2
        (by rw [JsonObj.appendO_cons]; exact hnod) (by omega) hstop]
      rw [JsonObj.appendO_cons]
end

mutual
theorem jsize_le_len : (x : Json) → jsize x ≤ (dumps x).length
  | .null => by simp [jsize, dumps]
  | .bool true => by simp [jsize, dumps]
  | .bool false => by simp [jsize, dumps]
  | .num n => by
    obtain ⟨c, cs, hcs, _⟩ := dumpInt_cons n
    simp [jsize, dumps, hcs]
  | .str s => by simp [jsize, dumps, dumpString]
  | .arr .nil => by simp [jsize, jsizeL, dumps]
  | .arr (.cons y ys) => by
    have h1 := jsize_le_len y
    have h2 := jsizeL_lt_len ys
    simp only [jsize, jsizeL, dumps, List.length_cons, List.length_append]
    omega
  | .obj .nil => by simp [jsize, jsizeO, dumps]
  | .obj (.cons k v kvs) => by
    have h1 := jsize_le_len v
    have h2 := jsizeO_lt_len kvs
    simp only [jsize, jsizeO, dumps, List.length_cons, List.length_append]
    omega

theorem jsizeL_lt_len : (xs : JsonList) → jsizeL xs < (dumpsArrTail xs).length
  | .nil => by simp [jsizeL, dumpsArrTail]
  | .cons y ys => by
    have h1 := jsize_le_len y
    have h2 := jsizeL_lt_len ys
    simp only [jsizeL, dumpsArrTail, List.length_cons, List.length_append]
    omega

theorem jsizeO_lt_len : (kvs : JsonObj) → jsizeO kvs < (dumpsObjTail kvs).length
  | .nil => by simp [jsizeO, dumpsObjTail]
  | .cons k v kvs => by
    have h1 := jsize_le_len v
    have h2 := jsizeO_lt_len kvs
    simp only [jsizeO, dumpsObjTail, List.length_cons, List.length_append]
    omega
end

/-- Round-trip law at the `json` module level: parsing a serialized value
recovers it exactly (for values without duplicate keys, i.e. everything a
Python `dict` can produce). -/
theorem loads_dumps (x : Json) (hok : jsonKeysOK x = true) :
    loads (dumps x) = some x := by
  unfold loads
  have h := rt_value x ((dumps x).length + 1) [] hok
    (by have := jsize_le_len x; omega) rfl
  rw [List.append_nil] at h
  rw [h]
  rfl

/-! ### UTF-8: model of `str.encode("utf-8")` / `bytes.decode("utf-8")` -/

/-- A code point Python can actually encode: below `0x110000` and not a
surrogate (`str.encode` raises on surrogates). -/
def scalarOK (c : Nat) : Bool := c < 1114112 && !(55296 ≤ c && c < 57344)

/-- Every code point of the string is encodable. -/
def strOK (s : List Nat) : Bool := s.all scalarOK

/-- UTF-8 bytes of one code point. -/
def utf8EncodeChar (c : Nat) : List Nat :=
  if c < 128 then [c]
  else if c < 2048 then [192 + c / 64, 128 + c % 64]
  else if c < 65536 then
    [224 + c / 4096, 128 + c / 64 % 64, 128 + c % 64]
  else
    [240 + c / 262144, 128 + c / 4096 % 64, 128 + c / 64 % 64, 128 + c % 64]

/-- UTF-8 bytes of a string of code points. -/
def utf8Encode (s : List Nat) : List Nat := s.flatMap utf8EncodeChar

/-- Decode one UTF-8-encoded code point; returns it with the remaining
bytes.  Overlong forms are not rejected, which only widens the set of
accepted inputs. -/
def utf8DecodeOne : List Nat → Option (Nat × List Nat)
  | [] => none
  | b :: r =>
    if b < 128 then some (b, r)
    else if b < 192 then none
    else if b < 224 then
      match r with
      | b2 :: r2 =>
        if 128 ≤ b2 ∧ b2 < 192 then
          some ((b - 192) * 64 + (b2 - 128), r2)
        else none
      | [] => none
    else if b < 240 then
      match r with
      | b2 :: b3 :: r2 =>
        if (128 ≤ b2 ∧ b2 < 192) ∧ (128 ≤ b3 ∧ b3 < 192) then
          some ((b - 224) * 4096 + (b2 - 128) * 64 + (b3 - 128), r2)
        else none
      | _ => none
    else
      match r with
      | b2 :: b3 :: b4 :: r2 =>
        if (128 ≤ b2 ∧ b2 < 192) ∧ (128 ≤ b3 ∧ b3 < 192) ∧
            (128 ≤ b4 ∧ b4 < 192) then
          some ((b - 240) * 262144 + (b2 - 128) * 4096 + (b3 - 128) * 64 +
            (b4 - 128), r2)
        else none
      | _ => none

/-- Fuelled UTF-8 decoding loop. -/
def utf8DecodeAux : Nat → List Nat → Option (List Nat)
  | _, [] => some []
  | 0, _ :: _ => none
  | f + 1, b :: r =>
    match utf8DecodeOne (b :: r) with
    | none => none
    | some (c, rest) => (utf8DecodeAux f rest).map (fun t => c :: t)

/-- Model of `bytes.decode("utf-8")` (up to acceptance of overlong
forms). -/
def utf8Decode (bs : List Nat) : Option (List Nat) :=
  utf8DecodeAux bs.length bs

theorem utf8EncodeChar_ne_nil (c : Nat) : utf8EncodeChar c ≠ [] := by
  unfold utf8EncodeChar
  by_cases h1 : c < 128
  · simp [h1]
  · by_cases h2 : c < 2048
    · simp [h1, h2]
    · by_cases h3 : c < 65536 <;> simp [h1, h2, h3]

theorem utf8DecodeOne_enc (c : Nat) (tail : List Nat)
    (h : scalarOK c = true) :
    utf8DecodeOne (utf8EncodeChar c ++ tail) = some (c, tail) := by
  simp only [scalarOK, Bool.and_eq_true, decide_eq_true_eq] at h
  have hcv : c < 1114112 := h.1
  by_cases h1 : c < 128
  · rw [show utf8EncodeChar c = [c] by simp [utf8EncodeChar, h1]]
    simp only [List.cons_append, List.nil_append]
    rw [utf8DecodeOne.eq_def]
    simp only []
    simp [h1]
  · by_cases h2 : c < 2048
    · rw [show utf8EncodeChar c = [192 + c / 64, 128 + c % 64] by
        simp [utf8EncodeChar, h1, h2]]
      simp only [List.cons_append, List.nil_append]
      rw [utf8DecodeOne.eq_def]
      simp only []
      rw [if_neg (by omega), if_neg (by omega), if_pos (by omega)]
      rw [if_pos (by omega)]
      simp only [Option.some.injEq, Prod.mk.injEq]
      exact ⟨by omega, trivial⟩
    · by_cases h3 : c < 65536
      · rw [show utf8EncodeChar c =
            [224 + c / 4096, 128 + c / 64 % 64, 128 + c % 64] by
          simp [utf8EncodeChar, h1, h2, h3]]
        simp only [List.cons_append, List.nil_append]
        rw [utf8DecodeOne.eq_def]
        simp only []
        rw [if_neg (by omega), if_neg (by omega), if_neg (by omega),
          if_pos (by omega)]
        rw [if_pos (by constructor <;> omega)]
        simp only [Option.some.injEq, Prod.mk.injEq]
        exact ⟨by omega, trivial⟩
      · rw [show utf8EncodeChar c =
            [240 + c / 262144, 128 + c / 4096 % 64, 128 + c / 64 % 64,
              128 + c % 64] by simp [utf8EncodeChar, h1, h2, h3]]
        simp only [List.cons_append, List.nil_append]
        rw [utf8DecodeOne.eq_def]
        simp only []
        rw [if_neg (by omega), if_neg (by omega), if_neg (by omega),
          if_neg (by omega)]
        rw [if_pos (by exact ⟨⟨by omega, by omega⟩, ⟨by omega, by omega⟩,
          by omega, by omega⟩)]
        simp only [Option.some.injEq, Prod.mk.injEq]
        exact ⟨by omega, trivial⟩

theorem utf8DecodeAux_enc (s : List Nat) :
    ∀ f, (utf8Encode s).length ≤ f → strOK s = true →
    utf8DecodeAux f (utf8Encode s) = some s := by
  induction s with
  | nil => intro f _ _; cases f <;> rfl
  | cons c s ih =>
    intro f hf h
    simp only [strOK, List.all_cons, Bool.and_eq_true] at h
    obtain ⟨hc, hs⟩ := h
    have henc : utf8Encode (c :: s) = utf8EncodeChar c ++ utf8Encode s := by
      simp [utf8Encode]
    obtain ⟨b, rr, hbr⟩ : ∃ b rr,
        utf8EncodeChar c ++ utf8Encode s = b :: rr := by
      cases hcc : utf8EncodeChar c with
      | nil => exact absurd hcc (utf8EncodeChar_ne_nil c)
      | cons b bs => exact ⟨b, bs ++ utf8Encode s, by simp [hcc]⟩
    have hlen1 : 1 ≤ (utf8EncodeChar c).length := by
      cases hcc : utf8EncodeChar c with
      | nil => exact absurd hcc (utf8EncodeChar_ne_nil c)
      | cons b bs => simp
    rw [henc] at hf ⊢
    simp only [List.length_append] at hf
    cases f with
    | zero => omega
    | succ g =>
      rw [hbr]
      simp only [utf8DecodeAux]
      rw [← hbr, utf8DecodeOne_enc c (utf8Encode s) hc]
      simp only []
      rw [ih g (by omega) (by simpa [strOK] using hs)]
      rfl

theorem utf8_roundtrip (s : List Nat) (h : strOK s = true) :
    utf8Decode (utf8Encode s) = some s :=
  utf8DecodeAux_enc s (utf8Encode s).length (le_refl _) h

theorem utf8EncodeChar_lt (c : Nat) (h : c < 1114112) :
    ∀ b ∈ utf8EncodeChar c, b < 256 := by
  intro b hb
  unfold utf8EncodeChar at hb
  by_cases h1 : c < 128
  · simp [h1] at hb; omega
  · by_cases h2 : c < 2048
    · simp [h1, h2] at hb; omega
    · by_cases h3 : c < 65536
      · simp [h1, h2, h3] at hb
        rcases hb with h | h | h <;> omega
      · simp [h1, h2, h3] at hb
        have : c / 262144 < 5 := by omega
        rcases hb with h | h | h | h <;> omega

theorem utf8Encode_lt (s : List Nat) (h : strOK s = true) :
    ∀ b ∈ utf8Encode s, b < 256 := by
  intro b hb
  simp only [utf8Encode, List.mem_flatMap] at hb
  obtain ⟨c, hc, hbc⟩ := hb
  simp only [strOK, List.all_eq_true] at h
  have := h c hc
  simp only [scalarOK, Bool.and_eq_true, decide_eq_true_eq] at this
  exact utf8EncodeChar_lt c this.1 b hbc

/-! ### Base64: model of `base64.b64encode` / `base64.b64decode`.
Decoding keeps Python's laxity about the unused trailing bits of the
final symbol (they are discarded, not validated); it is stricter than
Python about stray non-alphabet characters, which it rejects instead of
discarding. -/

/-- Standard base64 alphabet. -/
def b64chr (v : Nat) : Nat :=
  if v < 26 then 65 + v
  else if v < 52 then 71 + v
  else if v < 62 then v - 4
  else if v = 62 then 43
  else 47

/-- Value of an alphabet character. -/
def b64val (c : Nat) : Option Nat :=
  if 65 <= c && c <= 90 then some (c - 65)
  else if 97 <= c && c <= 122 then some (c - 71)
  else if 48 <= c && c <= 57 then some (c + 4)
  else if c = 43 then some 62
  else if c = 47 then some 63
  else none

/-- The 6-bit groups of a byte string (no padding). -/
def b64vals : List Nat -> List Nat
  | [] => []
  | [b1] => [b1 / 4, b1 % 4 * 16]
  | [b1, b2] => [b1 / 4, b1 % 4 * 16 + b2 / 16, b2 % 16 * 4]
  | b1 :: b2 :: b3 :: r =>
      b1 / 4 :: (b1 % 4 * 16 + b2 / 16) :: (b2 % 16 * 4 + b3 / 64) ::
        b3 % 64 :: b64vals r

/-- Model of `base64.b64encode`: alphabet characters plus `=` padding up
to a multiple of four. -/
def b64encode (bs : List Nat) : List Nat :=
  (b64vals bs).map b64chr ++
    List.replicate ((4 - (b64vals bs).length % 4) % 4) 61

/-- Reassemble bytes from 6-bit groups; a final group of two or three
symbols contributes one or two bytes, its trailing bits being discarded
exactly as CPython does. -/
def b64deQuads : List Nat -> Option (List Nat)
  | [] => some []
  | [_] => none
  | [a, b] => some [a * 4 + b / 16]
  | [a, b, c] => some [a * 4 + b / 16, b % 16 * 16 + c / 4]
  | a :: b :: c :: d :: r =>
      (b64deQuads r).map
        (fun t => (a * 4 + b / 16) :: (b % 16 * 16 + c / 4) ::
          (c % 4 * 64 + d) :: t)

/-- Symbol-wise decoding of a padding-free base64 body. -/
def b64valsOf : List Nat -> Option (List Nat)
  | [] => some []
  | c :: r =>
    match b64val c, b64valsOf r with
    | some v, some vs => some (v :: vs)
    | _, _ => none

/-- Model of `base64.b64decode`: strip up to two trailing `=`, require a
length that is a multiple of four, map symbols to 6-bit values, and
reassemble. -/
def b64decode (s : List Nat) : Option (List Nat) :=
  let r := s.reverse
  let p := (r.takeWhile (fun c => c == 61)).length
  if p <= 2 then
    let body := (r.drop p).reverse
    if (body.length + p) % 4 = 0 then
      match b64valsOf body with
      | some vals => b64deQuads vals
      | none => none
    else none
  else none

theorem b64val_b64chr : forall v, v < 64 -> b64val (b64chr v) = some v := by
  decide

theorem b64chr_ne61 : forall v, v < 64 -> b64chr v = 61 -> False := by
  decide

theorem b64chr_lt : forall v, v < 64 -> b64chr v < 128 := by
  decide

theorem b64vals_lt : (bs : List Nat) -> (forall b, b ∈ bs -> b < 256) ->
    forall v, v ∈ b64vals bs -> v < 64
  | [], _ => by simp [b64vals]
  | [b1], h => by
    have h1 := h b1 (by simp)
    simp only [b64vals, List.mem_cons, List.not_mem_nil, or_false]
    intro v hv
    rcases hv with rfl | rfl <;> omega
  | [b1, b2], h => by
    have h1 := h b1 (by simp)
    have h2 := h b2 (by simp)
    simp only [b64vals, List.mem_cons, List.not_mem_nil, or_false]
    intro v hv
    rcases hv with rfl | rfl | rfl <;> omega
  | b1 :: b2 :: b3 :: r, h => by
    have h1 := h b1 (by simp)
    have h2 := h b2 (by simp)
    have h3 := h b3 (by simp)
    have ih := b64vals_lt r (fun b hb => h b (by simp [hb]))
    simp only [b64vals, List.mem_cons]
    intro v hv
    rcases hv with rfl | rfl | rfl | rfl | hv
    · omega
    · omega
    · omega
    · omega
    · exact ih v hv

theorem b64deQuads_vals : (bs : List Nat) -> (forall b, b ∈ bs -> b < 256) ->
    b64deQuads (b64vals bs) = some bs
  | [], _ => rfl
  | [b1], h => by
    have h1 := h b1 (by simp)
    simp only [b64vals, b64deQuads, Option.some.injEq, List.cons.injEq,
      and_true]
    omega
  | [b1, b2], h => by
    have h1 := h b1 (by simp)
    have h2 := h b2 (by simp)
    simp only [b64vals, b64deQuads, Option.some.injEq, List.cons.injEq,
      and_true]
    exact ⟨by omega, by omega⟩
  | b1 :: b2 :: b3 :: r, h => by
    have h1 := h b1 (by simp)
    have h2 := h b2 (by simp)
    have h3 := h b3 (by simp)
    have ih := b64deQuads_vals r (fun b hb => h b (by simp [hb]))
    rw [show b64vals (b1 :: b2 :: b3 :: r) =
      b1 / 4 :: (b1 % 4 * 16 + b2 / 16) :: (b2 % 16 * 4 + b3 / 64) ::
        (b3 % 64) :: b64vals r from by simp [b64vals]]
    rw [b64deQuads.eq_def]
    simp only [ih, Option.map_some', Option.some.injEq, List.cons.injEq,
      and_true]
    refine ⟨by omega, by omega, by omega⟩

theorem b64valsOf_map (vals : List Nat) (h : ∀ v ∈ vals, v < 64) :
    b64valsOf (vals.map b64chr) = some vals := by
  induction vals with
  | nil => rfl
  | cons v vs ih =>
    have hv := h v (by simp)
    simp only [List.map_cons, b64valsOf, b64val_b64chr v hv,
      ih (fun w hw => h w (by simp [hw]))]

theorem b64vals_len_mod (bs : List Nat) :
    (b64vals bs).length % 4 = 0 ∨ (b64vals bs).length % 4 = 2 ∨
      (b64vals bs).length % 4 = 3 :=
  match bs with
  | [] => by simp [b64vals]
  | [b1] => by simp [b64vals]
  | [b1, b2] => by simp [b64vals]
  | b1 :: b2 :: b3 :: r => by
    have ih := b64vals_len_mod r
    simp only [b64vals, List.length_cons]
    omega

theorem takeWhile61_replicate (p : Nat) (l : List Nat)
    (hl : ∀ c ∈ l.head?, (c == 61) = false) :
    (List.replicate p 61 ++ l).takeWhile (fun c => c == 61) =
      List.replicate p 61 := by
  induction p with
  | zero =>
    simp only [List.replicate_zero, List.nil_append]
    cases l with
    | nil => rfl
    | cons c r =>
      have := hl c (by simp)
      simp [List.takeWhile_cons, this]
  | succ q ih =>
    simp only [List.replicate_succ, List.cons_append, List.takeWhile_cons]
    simp [ih]

theorem b64_roundtrip (bs : List Nat) (h : ∀ b ∈ bs, b < 256) :
    b64decode (b64encode bs) = some bs := by
  have hv : ∀ v ∈ b64vals bs, v < 64 := b64vals_lt bs h
  have hmod := b64vals_len_mod bs
  have hrev : (b64encode bs).reverse =
      List.replicate ((4 - (b64vals bs).length % 4) % 4) 61 ++
        ((b64vals bs).map b64chr).reverse := by
    simp [b64encode, List.reverse_append]
  have hhead : ∀ c ∈ (((b64vals bs).map b64chr).reverse).head?,
      (c == 61) = false := by
    intro c hc
    have hmem : c ∈ ((b64vals bs).map b64chr).reverse :=
      List.mem_of_mem_head? hc
    rw [List.mem_reverse] at hmem
    obtain ⟨v, hvm, rfl⟩ := List.mem_map.mp hmem
    have := b64chr_ne61 v (hv v hvm)
    simp only [beq_eq_false_iff_ne, ne_eq]
    exact this
  have htw := takeWhile61_replicate ((4 - (b64vals bs).length % 4) % 4)
    (((b64vals bs).map b64chr).reverse) hhead
  have hdrop : (List.replicate ((4 - (b64vals bs).length % 4) % 4) 61 ++
      ((b64vals bs).map b64chr).reverse).drop
        ((4 - (b64vals bs).length % 4) % 4) =
      ((b64vals bs).map b64chr).reverse := by
    have hdl := List.drop_left
      (List.replicate ((4 - (b64vals bs).length % 4) % 4) 61)
      (((b64vals bs).map b64chr).reverse)
    rwa [List.length_replicate] at hdl
  have hple : (4 - (b64vals bs).length % 4) % 4 ≤ 2 := by
    rcases hmod with hm | hm | hm <;> omega
  have hmul : ((b64vals bs).length + (4 - (b64vals bs).length % 4) % 4) %
      4 = 0 := by
    rcases hmod with hm | hm | hm <;> omega
  simp only [b64decode, hrev, htw, List.length_replicate, hdrop,
    List.reverse_reverse, List.length_map]
  rw [if_pos hple, if_pos hmul, b64valsOf_map _ hv]
  exact b64deQuads_vals bs h

/-! ### The position-XOR obfuscation loop of `encrypt_data`/`decrypt_data`
(`for i, b in enumerate(data): result.append(b ^ (i % 256))`). -/

/-- The obfuscation loop starting at position `i`. -/
def xorObfFrom (i : Nat) : List Nat → List Nat
  | [] => []
  | b :: bs => (b ^^^ (i % 256)) :: xorObfFrom (i + 1) bs

/-- Model of the XOR-by-position transform; self-inverse. -/
def xorObf (bs : List Nat) : List Nat := xorObfFrom 0 bs

theorem xorObfFrom_invol (bs : List Nat) :
    ∀ i, xorObfFrom i (xorObfFrom i bs) = bs := by
  induction bs with
  | nil => intro i; rfl
  | cons b bs ih =>
    intro i
    simp only [xorObfFrom, ih (i + 1), List.cons.injEq, and_true]
    rw [Nat.xor_assoc, Nat.xor_self, Nat.xor_zero]

theorem xorObf_invol (bs : List Nat) : xorObf (xorObf bs) = bs :=
  xorObfFrom_invol bs 0

theorem xorObfFrom_lt (bs : List Nat) (h : ∀ b ∈ bs, b < 256) :
    ∀ i, ∀ b ∈ xorObfFrom i bs, b < 256 := by
  induction bs with
  | nil => intro i b hb; simp [xorObfFrom] at hb
  | cons c bs ih =>
    intro i b hb
    simp only [xorObfFrom, List.mem_cons] at hb
    rcases hb with rfl | hb
    · have h1 : c < 2 ^ 8 := h c (by simp)
      have h2 : i % 256 < 2 ^ 8 := by omega
      have := Nat.xor_lt_two_pow h1 h2
      omega
    · exact ih (fun x hx => h x (by simp [hx])) (i + 1) b hb

theorem xorObf_lt (bs : List Nat) (h : ∀ b ∈ bs, b < 256) :
    ∀ b ∈ xorObf bs, b < 256 :=
  xorObfFrom_lt bs h 0

theorem b64chr_bound : ∀ v, v < 64 → b64chr v < 128 := b64chr_lt

theorem b64encode_lt (bs : List Nat) (h : ∀ b ∈ bs, b < 256) :
    ∀ c ∈ b64encode bs, c < 128 := by
  intro c hc
  simp only [b64encode, List.mem_append] at hc
  rcases hc with hc | hc
  · obtain ⟨v, hv, rfl⟩ := List.mem_map.mp hc
    exact b64chr_lt v (b64vals_lt bs h v hv)
  · have := List.eq_of_mem_replicate hc
    omega

theorem b64encode_strOK (bs : List Nat) (h : ∀ b ∈ bs, b < 256) :
    strOK (b64encode bs) = true := by
  simp only [strOK, List.all_eq_true]
  intro c hc
  have := b64encode_lt bs h c hc
  simp only [scalarOK, Bool.and_eq_true, decide_eq_true_eq,
    Bool.not_eq_true', Bool.and_eq_false_iff, decide_eq_false_iff_not]
  constructor
  · omega
  · left; omega

/-! ### Full well-formedness of a payload: encodable code points in all
strings and keys, and no duplicate keys in any object — exactly what a
JSON-serializable Python `dict` satisfies. -/

mutual
def jsonWF : Json → Bool
  | .null => true
  | .bool _ => true
  | .num _ => true
  | .str s => strOK s
  | .arr xs => jsonListWF xs
  | .obj kvs => objKeysNodupB kvs && jsonObjWF kvs

def jsonListWF : JsonList → Bool
  | .nil => true
  | .cons x xs => jsonWF x && jsonListWF xs

def jsonObjWF : JsonObj → Bool
  | .nil => true
  | .cons k v kvs => strOK k && jsonWF v && jsonObjWF kvs
end

mutual
theorem jsonWF_keysOK : (x : Json) → jsonWF x = true → jsonKeysOK x = true
  | .null, _ => rfl
  | .bool _, _ => rfl
  | .num _, _ => rfl
  | .str _, _ => rfl
  | .arr xs, h => by
    simp only [jsonWF] at h
    simp only [jsonKeysOK]
    exact jsonListWF_keysOK xs h
  | .obj kvs, h => by
    simp only [jsonWF, Bool.and_eq_true] at h
    simp only [jsonKeysOK, Bool.and_eq_true]
    exact ⟨h.1, jsonObjWF_keysOK kvs h.2⟩

theorem jsonListWF_keysOK : (xs : JsonList) → jsonListWF xs = true →
    jsonListKeysOK xs = true
  | .nil, _ => rfl
  | .cons x xs, h => by
    simp only [jsonListWF, Bool.and_eq_true] at h
    simp only [jsonListKeysOK, Bool.and_eq_true]
    exact ⟨jsonWF_keysOK x h.1, jsonListWF_keysOK xs h.2⟩

theorem jsonObjWF_keysOK : (kvs : JsonObj) → jsonObjWF kvs = true →
    jsonObjKeysOK kvs = true
  | .nil, _ => rfl
  | .cons k v kvs, h => by
    simp only [jsonObjWF, Bool.and_eq_true] at h
    simp only [jsonObjKeysOK, Bool.and_eq_true]
    exact ⟨jsonWF_keysOK v h.1.2, jsonObjWF_keysOK kvs h.2⟩

end

theorem strOK_append (a b : List Nat) :
    strOK (a ++ b) = (strOK a && strOK b) := by
  simp [strOK, List.all_append]

theorem strOK_cons (c : Nat) (s : List Nat) :
    strOK (c :: s) = (scalarOK c && strOK s) := by
  simp [strOK]

theorem hexChr_lt (n : Nat) (h : n < 16) : hexChr n < 128 := by
  simp only [hexChr]
  split <;> omega

theorem scalarOK_of_small (c : Nat) (h : c < 55296) : scalarOK c = true := by
  simp only [scalarOK, Bool.and_eq_true, decide_eq_true_eq,
    Bool.not_eq_true', Bool.and_eq_false_iff, decide_eq_false_iff_not]
  exact ⟨by omega, Or.inl (by omega)⟩

theorem escChar_strOK (c : Nat) (h : scalarOK c = true) :
    strOK (escChar c) = true := by
  unfold escChar
  by_cases h34 : c = 34
  · simp [h34]; decide
  · by_cases h92 : c = 92
    · simp [h34, h92]; decide
    · by_cases h8 : c = 8
      · simp [h34, h92, h8]; decide
      · by_cases h9 : c = 9
        · simp [h34, h92, h8, h9]; decide
        · by_cases h10 : c = 10
          · simp [h34, h92, h8, h9, h10]; decide
          · by_cases h12 : c = 12
            · simp [h34, h92, h8, h9, h10, h12]; decide
            · by_cases h13 : c = 13
              · simp [h34, h92, h8, h9, h10, h12, h13]; decide
              · by_cases hc : c < 32
                · simp only [if_neg h34, if_neg h92, if_neg h8, if_neg h9,
                    if_neg h10, if_neg h12, if_neg h13, if_pos hc]
                  have hx1 := hexChr_lt (c / 16) (by omega)
                  have hx2 := hexChr_lt (c % 16) (by omega)
                  simp only [strOK, List.all_cons, List.all_nil,
                    Bool.and_eq_true]
                  refine ⟨by decide, by decide, by decide, by decide,
                    scalarOK_of_small _ (by omega),
                    ⟨scalarOK_of_small _ (by omega), trivial⟩⟩
                · simp only [if_neg h34, if_neg h92, if_neg h8, if_neg h9,
                    if_neg h10, if_neg h12, if_neg h13, if_neg hc]
                  simp [strOK, h]

theorem dumpString_strOK (s : List Nat) (h : strOK s = true) :
    strOK (dumpString s) = true := by
  simp only [dumpString, strOK_cons, strOK_append, Bool.and_eq_true]
  refine ⟨by decide, ?_, by decide⟩
  simp only [strOK, List.all_eq_true]
  intro c hc
  simp only [List.mem_flatMap] at hc
  obtain ⟨d, hd, hcd⟩ := hc
  simp only [strOK, List.all_eq_true] at h
  have hde := escChar_strOK d (h d hd)
  simp only [strOK, List.all_eq_true] at hde
  exact hde c hcd

theorem dumpInt_strOK (n : Int) : strOK (dumpInt n) = true := by
  have hdig : ∀ d ∈ natDigitsBE n.natAbs, scalarOK d = true := by
    intro d hd
    have := natDigitsBE_all_digits n.natAbs d hd
    simp only [isDigit, Bool.and_eq_true, decide_eq_true_eq] at this
    exact scalarOK_of_small d (by omega)
  unfold dumpInt
  by_cases hneg : n < 0
  · rw [if_pos hneg]
    simp only [strOK_cons, Bool.and_eq_true]
    exact ⟨by decide, by simp only [strOK, List.all_eq_true]; exact hdig⟩
  · rw [if_neg hneg]
    simp only [strOK, List.all_eq_true]
    exact hdig

mutual
theorem dumps_strOK : (x : Json) → jsonWF x = true → strOK (dumps x) = true
  | .null, _ => by decide
  | .bool true, _ => by decide
  | .bool false, _ => by decide
  | .num n, _ => dumpInt_strOK n
  | .str s, h => dumpString_strOK s (by simpa [jsonWF] using h)
  | .arr .nil, _ => by decide
  | .arr (.cons y ys), h => by
    simp only [jsonWF, jsonListWF, Bool.and_eq_true] at h
    simp only [dumps, strOK_cons, strOK_append, Bool.and_eq_true]
    exact ⟨by decide, dumps_strOK y h.1, dumpsArrTail_strOK ys h.2⟩
  | .obj .nil, _ => by decide
  | .obj (.cons k v kvs), h => by
    simp only [jsonWF, objKeysNodupB, jsonObjWF, Bool.and_eq_true] at h
    obtain ⟨_, ⟨hk, hv⟩, hkvs⟩ := h
    simp only [dumps, strOK_cons, strOK_append, Bool.and_eq_true]
    refine ⟨by decide, ⟨⟨dumpString_strOK k hk, by decide⟩,
      dumps_strOK v hv⟩, ?_⟩
    exact dumpsObjTail_strOK kvs hkvs

theorem dumpsArrTail_strOK : (xs : JsonList) → jsonListWF xs = true →
    strOK (dumpsArrTail xs) = true
  | .nil, _ => by decide
  | .cons y ys, h => by
    simp only [jsonListWF, Bool.and_eq_true] at h
    simp only [dumpsArrTail, strOK_cons, strOK_append, Bool.and_eq_true]
    exact ⟨by decide, by decide, dumps_strOK y h.1, dumpsArrTail_strOK ys h.2⟩

theorem dumpsObjTail_strOK : (kvs : JsonObj) → jsonObjWF kvs = true →
    strOK (dumpsObjTail kvs) = true
  | .nil, _ => by decide
  | .cons k v kvs, h => by
    simp only [jsonObjWF, Bool.and_eq_true] at h
    obtain ⟨⟨hk, hv⟩, hkvs⟩ := h
    simp only [dumpsObjTail, strOK_cons, strOK_append, Bool.and_eq_true]
    exact ⟨by decide, by decide, ⟨⟨dumpString_strOK k hk, by decide⟩,
      dumps_strOK v hv⟩, dumpsObjTail_strOK kvs hkvs⟩
end

theorem b64chr_lt128 (v : Nat) : b64chr v < 128 := by
  unfold b64chr
  split
  · omega
  split
  · omega
  split
  · omega
  split
  · omega
  · omega

theorem b64encode_lt_all (bs : List Nat) : ∀ c ∈ b64encode bs, c < 128 := by
  intro c hc
  simp only [b64encode, List.mem_append] at hc
  rcases hc with hc | hc
  · obtain ⟨v, _, rfl⟩ := List.mem_map.mp hc
    exact b64chr_lt128 v
  · have := List.eq_of_mem_replicate hc
    omega

theorem b64encode_strOK_all (bs : List Nat) :
    strOK (b64encode bs) = true := by
  simp only [strOK, List.all_eq_true]
  intro c hc
  exact scalarOK_of_small c (by have := b64encode_lt_all bs c hc; omega)

/-! ### The envelope codec (`encrypt_data` / `decrypt_data`) and the
hashing primitives it is built on.

`hashlib.pbkdf2_hmac` and `hmac.new(..., hashlib.sha256)` are Python
standard-library kernels, not code of this repository; they enter the
model as the two pure functions of a `HashFns` record (byte strings in,
digest bytes out).  Every theorem below holds for an arbitrary choice of
these functions, hence in particular for the real ones. -/

structure HashFns : Type where
  hmacSha256 : List Nat → List Nat → List Nat
  pbkdf2Sha256 : List Nat → List Nat → Nat → List Nat

/-- `SECRET_KEY = b"SaveAny-Monitor-Auth-Key-2024-Secure"` (ASCII). -/
def SECRET_KEY : List Nat := cp "SaveAny-Monitor-Auth-Key-2024-Secure"

/-- Model of `create_signature`: base64 of the keyed digest of the UTF-8
bytes of the serialized data. -/
def create_signature (H : HashFns) (data : List Nat) : List Nat :=
  b64encode (H.hmacSha256 SECRET_KEY (utf8Encode data))

/-- Model of `verify_signature` (`hmac.compare_digest` is equality with
constant-time evaluation; timing is outside the model). -/
def verify_signature (H : HashFns) (data sig : List Nat) : Bool :=
  decide (create_signature H data = sig)

/-- Model of `hash_password`: base64 of PBKDF2-HMAC-SHA256 with 100000
iterations over the UTF-8 bytes of password and salt. -/
def hash_password (H : HashFns) (password salt : List Nat) : List Nat :=
  b64encode (H.pbkdf2Sha256 (utf8Encode password) (utf8Encode salt) 100000)

/-- The envelope payload container `{"data": ..., "signature": ...}`. -/
def fullData (data : Json) (sig : List Nat) : Json :=
  .obj (.cons (cp "data") data (.cons (cp "signature") (.str sig) .nil))

/-- Model of `encrypt_data`: serialize, sign, wrap, base64, XOR-by-
position, base64. -/
def encrypt_data (H : HashFns) (data : Json) : List Nat :=
  let json_str := dumps data
  let signature := create_signature H json_str
  let encoded := b64encode (utf8Encode (dumps (fullData data signature)))
  b64encode (xorObf encoded)

/-- The decoding stages of `decrypt_data` before the signature check:
outer base64, XOR-by-position, inner base64, UTF-8, JSON parse. -/
def envelopeInner (encrypted : List Nat) : Option Json :=
  match b64decode encrypted with
  | none => none
  | some data =>
    match b64decode (xorObf data) with
    | none => none
    | some decoded =>
      match utf8Decode decoded with
      | none => none
      | some cps => loads cps

/-- Model of `decrypt_data`: run the decoding stages, extract the `data`
and `signature` fields, recompute and compare the signature; any failure
(raised exception in Python) yields `none`.  A non-string signature field
makes `hmac.compare_digest` raise, hence `none`. -/
def decrypt_data (H : HashFns) (encrypted : List Nat) : Option Json :=
  match envelopeInner encrypted with
  | some (Json.obj kvs) =>
    match kvs.lookup (cp "data"), kvs.lookup (cp "signature") with
    | some d, some (Json.str sig) =>
      if verify_signature H (dumps d) sig then some d else none
    | some _, some _ => none
    | some _, none => none
    | none, _ => none
  | _ => none

theorem fullData_wf (H : HashFns) (x : Json) (h : jsonWF x = true) :
    jsonWF (fullData x (create_signature H (dumps x))) = true := by
  have hs : strOK (create_signature H (dumps x)) = true :=
    b64encode_strOK_all _
  have hkey : ¬(cp "signature" = cp "data") := by decide
  simp only [fullData, jsonWF, Bool.and_eq_true]
  constructor
  · simp [objKeysNodupB, keyMem, if_neg hkey]
  · simp only [jsonObjWF, jsonWF, Bool.and_eq_true]
    simp [h, hs]
    exact ⟨by decide, by decide⟩

/-- The round-trip core: decoding an encoded envelope succeeds and
returns the original payload, for any choice of the hash primitives. -/
theorem decrypt_encrypt (H : HashFns) (x : Json) (h : jsonWF x = true) :
    decrypt_data H (encrypt_data H x) = some x := by
  have hwfull := fullData_wf H x h
  have hstr : strOK (dumps (fullData x (create_signature H (dumps x)))) =
      true := dumps_strOK _ hwfull
  have hbytes : ∀ b ∈ utf8Encode
      (dumps (fullData x (create_signature H (dumps x)))), b < 256 :=
    utf8Encode_lt _ hstr
  have henc : ∀ b ∈ b64encode (utf8Encode
      (dumps (fullData x (create_signature H (dumps x))))), b < 256 := by
    intro b hb
    have := b64encode_lt_all _ b hb
    omega
  have hxor : ∀ b ∈ xorObf (b64encode (utf8Encode
      (dumps (fullData x (create_signature H (dumps x)))))), b < 256 :=
    xorObf_lt _ henc
  simp only [encrypt_data, decrypt_data, envelopeInner]
  rw [b64_roundtrip _ hxor]
  simp only []
  rw [xorObf_invol, b64_roundtrip _ hbytes]
  simp only []
  rw [utf8_roundtrip _ hstr]
  simp only []
  rw [loads_dumps _ (jsonWF_keysOK _ hwfull)]
  simp only [fullData, JsonObj.lookup]
  simp only [if_true]
  rw [if_neg (show ¬cp "data" = cp "signature" by decide)]
  simp only [if_true]
  simp [verify_signature]

/-! ### Credential store: `AccountManager` of `auth_module.py` and the
equivalent module-level account logic of `saveany_server.py`.

Ambient inputs of the Python code are explicit arguments here:
`generate_salt()` and `datetime.now()` results are passed to
`add_account`, `get_machine_id()` and the timestamp to
`generate_license`, and file contents to the load functions. -/

/-- One stored account record (the per-username dict
`{salt, password_hash, created, enabled}`). -/
structure Account : Type where
  salt : List Nat
  password_hash : List Nat
  created : List Nat
  enabled : Bool
deriving DecidableEq

/-- The in-memory account mapping (`self.accounts` / global `accounts`):
an insertion-ordered dict from username to record. -/
abbrev Store : Type := List (List Nat × Account)

/-- Python `dict` lookup on the store. -/
def slookup (u : List Nat) : Store → Option Account
  | [] => none
  | kv :: s => if kv.1 = u then some kv.2 else slookup u s

def msgEmptyUserPass : String := "用户名和密码不能为空"
def msgUserShort : String := "用户名至少3个字符"
def msgPassShort : String := "密码至少6个字符"
def msgUserExists : String := "用户名已存在"
def msgCreated : String := "账号创建成功"
def msgNotFound : String := "账号不存在"
def msgDeleted : String := "账号删除成功"
def msgDisabled : String := "账号已禁用"
def msgWrongPw : String := "密码错误"
def msgVerifyOk : String := "验证成功"
def msgToggleOn : String := "账号已启用"
def msgToggleOff : String := "账号已禁用"
def msgLicenseOk : String := "授权文件生成成功"
def msgNoLicense : String := "未找到授权文件"
def msgUserMismatch : String := "用户名不匹配"
def msgTokenEmpty : String := "Token 不能为空"
def msgTokenInvalid : String := "Token 无效"
def msgTokenValid : String := "Token 有效"

/-- Model of `AccountManager.add_account`; `salt` is the
`generate_salt()` result and `created` the formatted `datetime.now()`.
The persistence side effect of `save_accounts()` is not part of the
in-memory state transition modelled here. -/
def add_account (H : HashFns) (s : Store) (u p salt created : List Nat) :
    (Bool × String) × Store :=
  if u = [] ∨ p = [] then ((false, msgEmptyUserPass), s)
  else if u.length < 3 then ((false, msgUserShort), s)
  else if p.length < 6 then ((false, msgPassShort), s)
  else if (slookup u s).isSome then ((false, msgUserExists), s)
  else ((true, msgCreated),
    s ++ [(u, ⟨salt, hash_password H p salt, created, true⟩)])

/-- Model of `AccountManager.delete_account`. -/
def delete_account (s : Store) (u : List Nat) : (Bool × String) × Store :=
  if (slookup u s).isSome then
    ((true, msgDeleted), s.filter (fun kv => !decide (kv.1 = u)))
  else ((false, msgNotFound), s)

/-- Model of `AccountManager.verify_account` (and of the inline account
check of the server's `/api/verify` handler, which duplicates it). -/
def verify_account (H : HashFns) (s : Store) (u p : List Nat) :
    Bool × String :=
  match slookup u s with
  | none => (false, msgNotFound)
  | some a =>
    if !a.enabled then (false, msgDisabled)
    else if hash_password H p a.salt ≠ a.password_hash then
      (false, msgWrongPw)
    else (true, msgVerifyOk)

/-- One record of `AccountManager.list_accounts` output: exactly the
fields `username`, `created`, `enabled`. -/
structure PubAccount : Type where
  username : List Nat
  created : List Nat
  enabled : Bool
deriving DecidableEq

/-- Model of `AccountManager.list_accounts`. -/
def list_accounts (s : Store) : List PubAccount :=
  s.map (fun kv => ⟨kv.1, kv.2.created, kv.2.enabled⟩)

/-- Model of `AccountManager.toggle_account`. -/
def toggle_account (s : Store) (u : List Nat) : (Bool × String) × Store :=
  match slookup u s with
  | none => ((false, msgNotFound), s)
  | some a =>
    ((true, if !a.enabled then msgToggleOn else msgToggleOff),
     s.map (fun kv =>
       if kv.1 = u then (kv.1, { kv.2 with enabled := !a.enabled }) else kv))

/-- The License payload built by `generate_license`. -/
def licenseJson (u ph salt issued mid : List Nat) : Json :=
  .obj (.cons (cp "username") (.str u)
    (.cons (cp "password_hash") (.str ph)
      (.cons (cp "salt") (.str salt)
        (.cons (cp "issued") (.str issued)
          (.cons (cp "machine_id") (.str mid) .nil)))))

/-- Model of `AccountManager.generate_license`; `issued` is the
formatted `datetime.now()` and `machineId` the `get_machine_id()`
result.  The second lookup cannot fail after a successful
`verify_account` (see `generate_license_slookup`); Python would raise
`KeyError` there, modelled by an unreachable failure triple. -/
def generate_license (H : HashFns) (s : Store)
    (u p issued machineId : List Nat) : Bool × String × List Nat :=
  match verify_account H s u p with
  | (false, msg) => (false, msg, [])
  | (true, _) =>
    match slookup u s with
    | none => (false, msgNotFound, [])
    | some a =>
      (true, msgLicenseOk,
        encrypt_data H (licenseJson u a.password_hash a.salt issued machineId))

/-! ### License holder: `LicenseManager` of `auth_module.py`.  Its
in-memory state is `license_data : Option Json`, the result of
`decrypt_data` on the license file. -/

/-- Model of `LicenseManager.verify_offline`.  `none` stands for an
uncaught Python exception (`.get` on a non-dict license, or
`hash_password` on a non-string salt); neither is reachable with a
license produced by `generate_license`. -/
def verify_offline (H : HashFns) (ld : Option Json) (u p : List Nat) :
    Option (Bool × String) :=
  match ld with
  | none => some (false, msgNoLicense)
  | some d =>
    if jsonTruthy d = false then some (false, msgNoLicense)
    else
      match d with
      | Json.obj kvs =>
        if kvs.lookup (cp "username") ≠ some (Json.str u) then
          some (false, msgUserMismatch)
        else
          match kvs.getD (cp "salt") (Json.str []) with
          | Json.str saltv =>
            some (if Json.str (hash_password H p saltv) ≠
                kvs.getD (cp "password_hash") (Json.str []) then
              (false, msgWrongPw)
            else (true, msgVerifyOk))
          | _ => none
      | _ => none

/-! ### Verification service: the `/api/verify` and
`/api/validate_token` handlers of `saveany_server.py`. -/

/-- The Token payload minted by `/api/verify`. -/
def tokenJson (u issued : List Nat) : Json :=
  .obj (.cons (cp "username") (.str u)
    (.cons (cp "issued") (.str issued)
      (.cons (cp "valid") (.bool true) .nil)))

/-- Model of the `/api/verify` handler: `(success, message, token)`,
with an empty token on failure. -/
def api_verify (H : HashFns) (s : Store) (u p issued : List Nat) :
    Bool × String × List Nat :=
  if u = [] ∨ p = [] then (false, msgEmptyUserPass, [])
  else
    match slookup u s with
    | none => (false, msgNotFound, [])
    | some a =>
      if !a.enabled then (false, msgDisabled, [])
      else if hash_password H p a.salt ≠ a.password_hash then
        (false, msgWrongPw, [])
      else (true, msgVerifyOk, encrypt_data H (tokenJson u issued))

/-- The live-store check of `/api/validate_token` once a username has
been recovered from the token. -/
def tokenCheck (s : Store) (u : List Nat) : Bool × String :=
  match slookup u s with
  | none => (false, msgNotFound)
  | some a => if !a.enabled then (false, msgDisabled) else (true, msgTokenValid)

/-- Model of the `/api/validate_token` handler.  After decoding, the
handler checks `if not token_data:` — so every falsy decoded payload
(empty dict, `null`, `false`, `0`, empty string, empty list) draws the
token-invalid message exactly like a failed decode.  `none` stands for
an uncaught Python exception: a truthy decoded token that is not a
dict makes `.get` raise, an unhashable `username` value makes `in`
raise; hashable non-string values are simply never dict keys, so they
report "account not found" exactly as Python does. -/
def validate_token (H : HashFns) (s : Store) (token : List Nat) :
    Option (Bool × String) :=
  if token = [] then some (false, msgTokenEmpty)
  else
    match decrypt_data H token with
    | none => some (false, msgTokenInvalid)
    | some d =>
      if jsonTruthy d = false then some (false, msgTokenInvalid)
      else
        match d with
        | Json.obj kvs =>
          match kvs.lookup (cp "username") with
          | some (Json.str uv) => some (tokenCheck s uv)
          | none => some (tokenCheck s [])
          | some (Json.num _) => some (false, msgNotFound)
          | some (Json.bool _) => some (false, msgNotFound)
          | some Json.null => some (false, msgNotFound)
          | some (Json.arr _) => none
          | some (Json.obj _) => none
        | _ => none

/-! ### Loading the persisted store.  The two variants differ:
`saveany_server.load_accounts` falls back to `{}` in every failure case,
while `AccountManager.load_accounts` leaves `self.accounts` untouched
when the file is absent or `decrypt_data` returns a falsy value (its
`except` clause resets to `{}` only on a raised exception, e.g. `.get`
on a non-dict). -/

/-- Model of `saveany_server.load_accounts`: the resulting global
`accounts` value, at the JSON level.  `file` is the content of
`accounts.dat`, or `none` when the file does not exist. -/
def load_accounts_server (H : HashFns) (file : Option (List Nat)) : Json :=
  match file with
  | none => Json.obj .nil
  | some bs =>
    match decrypt_data H bs with
    | none => Json.obj .nil
    | some d =>
      if jsonTruthy d then
        match d with
        | Json.obj kvs => kvs.getD (cp "accounts") (Json.obj .nil)
        | _ => Json.obj .nil
      else Json.obj .nil

/-- Model of `AccountManager.load_accounts`: `prev` is the in-memory
`self.accounts` before the call. -/
def load_accounts_auth (H : HashFns) (file : Option (List Nat))
    (prev : Json) : Json :=
  match file with
  | none => prev
  | some bs =>
    match decrypt_data H bs with
    | none => prev
    | some d =>
      if jsonTruthy d then
        match d with
        | Json.obj kvs => kvs.getD (cp "accounts") (Json.obj .nil)
        | _ => Json.obj .nil
      else prev

/-! ### Store lemmas used by the claims -/

theorem slookup_append_not_found (s : Store) (u : List Nat) (a : Account)
    (h : slookup u s = none) : slookup u (s ++ [(u, a)]) = some a := by
  induction s with
  | nil => simp [slookup]
  | cons kv s ih =>
    simp only [slookup] at h ⊢
    by_cases hk : kv.1 = u
    · simp [hk] at h
    · rw [if_neg hk] at h ⊢
      exact ih h

theorem slookup_append_other (s : Store) (u v : List Nat) (a : Account)
    (hne : v ≠ u) : slookup v (s ++ [(u, a)]) = slookup v s := by
  induction s with
  | nil =>
    simp only [List.nil_append, slookup]
    rw [if_neg (fun h => hne h.symm)]
  | cons kv s ih =>
    simp only [List.cons_append, slookup]
    by_cases hk : kv.1 = v
    · rw [if_pos hk, if_pos hk]
    · rw [if_neg hk, if_neg hk]
      exact ih

theorem slookup_filter_ne (s : Store) (u v : List Nat) (hne : v ≠ u) :
    slookup v (s.filter (fun kv => !decide (kv.1 = u))) = slookup v s := by
  induction s with
  | nil => rfl
  | cons kv s ih =>
    by_cases hk : kv.1 = u
    · have hv : ¬kv.1 = v := fun h => hne (h.symm.trans hk)
      have hp : (!decide (kv.1 = u)) = false := by simp [hk]
      rw [List.filter_cons, hp]
      rw [if_neg (by simp)]
      conv_rhs => rw [slookup.eq_def]
      simp only []
      rw [if_neg hv]
      exact ih
    · have hp : (!decide (kv.1 = u)) = true := by simp [hk]
      rw [List.filter_cons, hp, if_pos rfl]
      simp only [slookup]
      by_cases hv : kv.1 = v
      · rw [if_pos hv, if_pos hv]
      · rw [if_neg hv, if_neg hv]
        exact ih

theorem slookup_map_update (s : Store) (u v : List Nat) (e : Bool)
    (hne : v ≠ u) :
    slookup v (s.map (fun kv =>
      if kv.1 = u then (kv.1, { kv.2 with enabled := e }) else kv)) =
      slookup v s := by
  induction s with
  | nil => rfl
  | cons kv s ih =>
    simp only [List.map_cons]
    by_cases hk : kv.1 = u
    · have hv : kv.1 ≠ v := by rw [hk]; exact fun h => hne h.symm
      rw [if_pos hk]
      simp only [slookup, if_neg hv]
      exact ih
    · rw [if_neg hk]
      simp only [slookup]
      by_cases hv : kv.1 = v
      · simp [hv]
      · rw [if_neg hv, if_neg hv]
        exact ih

/-- A concrete choice of the hashing primitives, used to instantiate the
parametric theorems on closed inputs: the digest is the message itself
(injective), the derived key is the password bytes. -/
def idHash : HashFns := ⟨fun _ msg => msg, fun pw _ _ => pw⟩

/-- C1: for every JSON-serializable dict payload x (modelled as any
well-formed JSON value), decoding the envelope produced by encoding x
returns exactly x: `decrypt_data (encrypt_data x) = some x`, for any
choice of the hashing primitives. -/
theorem c1_encrypt_decrypt_roundtrip (H : HashFns) (x : Json)
    (h : jsonWF x = true) :
    decrypt_data H (encrypt_data H x) = some x :=
  decrypt_encrypt H x h

theorem c1_witness :
    jsonWF (Json.obj (.cons (cp "user") (.str (cp "alice")) .nil)) = true ∧
    decrypt_data idHash (encrypt_data idHash
      (Json.obj (.cons (cp "user") (.str (cp "alice")) .nil))) =
      some (Json.obj (.cons (cp "user") (.str (cp "alice")) .nil)) :=
  ⟨by decide, c1_encrypt_decrypt_roundtrip idHash _ (by decide)⟩

/-- C2: `verify_account` fails with the distinct not-found / disabled /
wrong-password messages in exactly the corresponding situations, and
succeeds exactly when the account exists, is enabled, and the re-derived
hash equals the stored one. -/
theorem c2_verify_account_cases (H : HashFns) (s : Store) (u p : List Nat) :
    (slookup u s = none → verify_account H s u p = (false, msgNotFound)) ∧
    (∀ a, slookup u s = some a → a.enabled = false →
      verify_account H s u p = (false, msgDisabled)) ∧
    (∀ a, slookup u s = some a → a.enabled = true →
      hash_password H p a.salt ≠ a.password_hash →
      verify_account H s u p = (false, msgWrongPw)) ∧
    (∀ a, slookup u s = some a → a.enabled = true →
      hash_password H p a.salt = a.password_hash →
      verify_account H s u p = (true, msgVerifyOk)) ∧
    ((verify_account H s u p).1 = true ↔
      ∃ a, slookup u s = some a ∧ a.enabled = true ∧
        hash_password H p a.salt = a.password_hash) ∧
    (msgNotFound ≠ msgDisabled ∧ msgNotFound ≠ msgWrongPw ∧
      msgDisabled ≠ msgWrongPw) := by
  refine ⟨?_, ?_, ?_, ?_, ?_, by decide, by decide, by decide⟩
  · intro h
    simp [verify_account, h]
  · intro a ha he
    simp [verify_account, ha, he]
  · intro a ha he hw
    simp [verify_account, ha, he, hw]
  · intro a ha he hw
    simp [verify_account, ha, he, hw]
  · constructor
    · intro h
      cases ha : slookup u s with
      | none => simp [verify_account, ha] at h
      | some a =>
        refine ⟨a, rfl, ?_⟩
        by_cases he : a.enabled
        · by_cases hw : hash_password H p a.salt = a.password_hash
          · exact ⟨he, hw⟩
          · simp [verify_account, ha, he, hw] at h
        · simp [verify_account, ha, he] at h
    · rintro ⟨a, ha, he, hw⟩
      simp [verify_account, ha, he, hw]

theorem c2_witness :
    verify_account idHash [] (cp "alice") (cp "secret1") =
      (false, msgNotFound) :=
  (c2_verify_account_cases idHash [] (cp "alice") (cp "secret1")).1 rfl

/-- C3: `add_account` returns the specific validation-failure message
for empty fields, a short username, a short password, or an existing
username; otherwise it succeeds and the store afterwards maps the
username to a record with the given fresh salt, the hash derived from
password and salt, and `enabled = true`. -/
theorem c3_add_account_spec (H : HashFns) (s : Store)
    (u p salt created : List Nat) :
    ((u = [] ∨ p = []) →
      add_account H s u p salt created = ((false, msgEmptyUserPass), s)) ∧
    (¬(u = [] ∨ p = []) → u.length < 3 →
      add_account H s u p salt created = ((false, msgUserShort), s)) ∧
    (¬(u = [] ∨ p = []) → ¬u.length < 3 → p.length < 6 →
      add_account H s u p salt created = ((false, msgPassShort), s)) ∧
    (¬(u = [] ∨ p = []) → ¬u.length < 3 → ¬p.length < 6 →
      (slookup u s).isSome = true →
      add_account H s u p salt created = ((false, msgUserExists), s)) ∧
    (¬(u = [] ∨ p = []) → ¬u.length < 3 → ¬p.length < 6 →
      slookup u s = none →
      (add_account H s u p salt created).1 = (true, msgCreated) ∧
      slookup u (add_account H s u p salt created).2 =
        some ⟨salt, hash_password H p salt, created, true⟩) := by
  refine ⟨?_, ?_, ?_, ?_, ?_⟩
  · intro h
    simp [add_account, h]
  · intro h1 h2
    simp [add_account, h1, h2]
  · intro h1 h2 h3
    simp [add_account, h1, h2, h3]
  · intro h1 h2 h3 h4
    simp [add_account, h1, h2, h3, h4]
  · intro h1 h2 h3 h4
    have h5 : (slookup u s).isSome = false := by simp [h4]
    have h6 : add_account H s u p salt created = ((true, msgCreated),
        s ++ [(u, ⟨salt, hash_password H p salt, created, true⟩)]) := by
      simp [add_account, h1, h2, h3, h5]
    rw [h6]
    exact ⟨rfl, slookup_append_not_found s u _ h4⟩

theorem c3_witness :
    add_account idHash [] (cp "ab") (cp "validpass") (cp "s") (cp "t") =
      ((false, msgUserShort), []) :=
  (c3_add_account_spec idHash [] (cp "ab") (cp "validpass") (cp "s")
    (cp "t")).2.1 (by decide) (by decide)

theorem verify_account_true_lookup (H : HashFns) (s : Store)
    (u p : List Nat) (h : (verify_account H s u p).1 = true) :
    ∃ a, slookup u s = some a := by
  cases ha : slookup u s with
  | none => simp [verify_account, ha] at h
  | some a => exact ⟨a, rfl⟩

/-- C4: `generate_license` forwards any `verify_account` failure message
with an empty envelope, and on success returns the envelope encoding of
a License payload copying the account's current hash and salt verbatim,
stamped with the supplied issue time and machine id (the ambient
`datetime.now()` / `get_machine_id()` values, modelled as arguments). -/
theorem c4_generate_license_spec (H : HashFns) (s : Store)
    (u p issued mid : List Nat) :
    (∀ m, verify_account H s u p = (false, m) →
      generate_license H s u p issued mid = (false, m, [])) ∧
    ((verify_account H s u p).1 = true →
      ∃ a, slookup u s = some a ∧
        generate_license H s u p issued mid =
          (true, msgLicenseOk,
            encrypt_data H (licenseJson u a.password_hash a.salt issued mid))) := by
  constructor
  · intro m h
    simp [generate_license, h]
  · intro h
    obtain ⟨a, ha⟩ := verify_account_true_lookup H s u p h
    refine ⟨a, ha, ?_⟩
    rcases hveq : verify_account H s u p with ⟨b, m⟩
    rw [hveq] at h
    simp only at h
    subst h
    simp [generate_license, hveq, ha]

theorem c4_witness :
    generate_license idHash [] (cp "alice") (cp "secret1") (cp "t")
      (cp "m") = (false, msgNotFound, []) :=
  (c4_generate_license_spec idHash [] (cp "alice") (cp "secret1") (cp "t")
    (cp "m")).1 msgNotFound (by decide)

theorem licenseJson_wf (u ph salt issued mid : List Nat)
    (hu : strOK u = true) (hph : strOK ph = true)
    (hsalt : strOK salt = true) (hiss : strOK issued = true)
    (hmid : strOK mid = true) :
    jsonWF (licenseJson u ph salt issued mid) = true := by
  have d1 : ¬cp "password_hash" = cp "username" := by decide
  have d2 : ¬cp "salt" = cp "username" := by decide
  have d3 : ¬cp "issued" = cp "username" := by decide
  have d4 : ¬cp "machine_id" = cp "username" := by decide
  have d5 : ¬cp "salt" = cp "password_hash" := by decide
  have d6 : ¬cp "issued" = cp "password_hash" := by decide
  have d7 : ¬cp "machine_id" = cp "password_hash" := by decide
  have d8 : ¬cp "issued" = cp "salt" := by decide
  have d9 : ¬cp "machine_id" = cp "salt" := by decide
  have d10 : ¬cp "machine_id" = cp "issued" := by decide
  simp [licenseJson, jsonWF, jsonObjWF, objKeysNodupB, keyMem,
    d1, d2, d3, d4, d5, d6, d7, d8, d9, d10, hu, hph, hsalt, hiss, hmid]
  refine ⟨by decide, by decide, by decide, by decide, by decide⟩

theorem verify_offline_licenseJson (H : HashFns)
    (u ph salt issued mid p : List Nat) :
    verify_offline H (some (licenseJson u ph salt issued mid)) u p =
      some (if hash_password H p salt = ph then (true, msgVerifyOk)
        else (false, msgWrongPw)) := by
  have d1 : ¬cp "password_hash" = cp "username" := by decide
  have d2 : ¬cp "salt" = cp "username" := by decide
  have d3 : ¬cp "issued" = cp "username" := by decide
  have d4 : ¬cp "machine_id" = cp "username" := by decide
  have dpu : ¬cp "username" = cp "salt" := by decide
  have dsu : ¬cp "password_hash" = cp "salt" := by decide
  have dph : ¬cp "username" = cp "password_hash" := by decide
  simp [verify_offline, licenseJson, jsonTruthy, JsonObj.lookup,
    JsonObj.getD, d1, d2, d3, d4, dpu, dsu, dph]

/-- C5: for an enabled account whose stored hash was derived by
`add_account` from `password` and `salt`, license generation succeeds
exactly when `verify_account` does; the issued envelope decodes to the
License payload, the loaded license makes `verify_offline` succeed for
the original password, and fail with the wrong-password message for
every password whose derived hash differs from the stored one. -/
theorem c5_license_offline (H : HashFns) (s : Store)
    (u p salt created issued mid : List Nat)
    (hacc : slookup u s =
      some ⟨salt, hash_password H p salt, created, true⟩)
    (hu : strOK u = true) (hsalt : strOK salt = true)
    (hiss : strOK issued = true) (hmid : strOK mid = true) :
    (∀ (s2 : Store) (u2 p2 i2 m2 : List Nat),
      (generate_license H s2 u2 p2 i2 m2).1 = (verify_account H s2 u2 p2).1) ∧
    (generate_license H s u p issued mid).1 = true ∧
    decrypt_data H (generate_license H s u p issued mid).2.2 =
      some (licenseJson u (hash_password H p salt) salt issued mid) ∧
    verify_offline H
      (decrypt_data H (generate_license H s u p issued mid).2.2) u p =
      some (true, msgVerifyOk) ∧
    (∀ w, hash_password H w salt ≠ hash_password H p salt →
      verify_offline H
        (decrypt_data H (generate_license H s u p issued mid).2.2) u w =
        some (false, msgWrongPw)) := by
  have hva : verify_account H s u p = (true, msgVerifyOk) := by
    simp [verify_account, hacc]
  have hgl : generate_license H s u p issued mid =
      (true, msgLicenseOk, encrypt_data H
        (licenseJson u (hash_password H p salt) salt issued mid)) := by
    simp [generate_license, hva, hacc]
  have hwf : jsonWF (licenseJson u (hash_password H p salt) salt issued
      mid) = true :=
    licenseJson_wf u _ salt issued mid hu (b64encode_strOK_all _) hsalt
      hiss hmid
  have hdec : decrypt_data H (generate_license H s u p issued mid).2.2 =
      some (licenseJson u (hash_password H p salt) salt issued mid) := by
    rw [hgl]
    exact decrypt_encrypt H _ hwf
  refine ⟨?_, by rw [hgl], hdec, ?_, ?_⟩
  · intro s2 u2 p2 i2 m2
    rcases hv : verify_account H s2 u2 p2 with ⟨b, m⟩
    cases b with
    | false => simp [generate_license, hv]
    | true =>
      obtain ⟨a, ha⟩ := verify_account_true_lookup H s2 u2 p2 (by rw [hv])
      simp [generate_license, hv, ha]
  · rw [hdec, verify_offline_licenseJson]
    rw [if_pos rfl]
  · intro w hw
    rw [hdec, verify_offline_licenseJson]
    rw [if_neg hw]

/-- A concrete store with one enabled account created from password
`secret1` and salt `0123abcd`, used to instantiate the parametric
claims. -/
def demoStore : Store :=
  [(cp "alice", ⟨cp "0123abcd",
    hash_password idHash (cp "secret1") (cp "0123abcd"),
    cp "2024-01-01 00:00:00", true⟩)]

theorem c5_witness :
    verify_offline idHash
      (decrypt_data idHash
        (generate_license idHash demoStore (cp "alice") (cp "secret1")
          (cp "2024-06-01 00:00:00") (cp "m1")).2.2)
      (cp "alice") (cp "secret1") = some (true, msgVerifyOk) :=
  (c5_license_offline idHash demoStore (cp "alice") (cp "secret1")
    (cp "0123abcd") (cp "2024-01-01 00:00:00") (cp "2024-06-01 00:00:00")
    (cp "m1") (by decide) (by decide) (by decide) (by decide)
    (by decide)).2.2.2.1

/-- C9: `list_accounts` returns one record per stored account carrying
exactly the username, creation time and enabled flag, and its result is
unchanged under any modification of the stored salts and password
hashes (no credential material is exposed). -/
theorem c9_list_accounts_spec (s s2 : Store) :
    ((list_accounts s).length = s.length) ∧
    (∀ i (h : i < s.length),
      (list_accounts s).get ⟨i, by simpa [list_accounts] using h⟩ =
        ⟨(s.get ⟨i, h⟩).1, (s.get ⟨i, h⟩).2.created,
          (s.get ⟨i, h⟩).2.enabled⟩) ∧
    (List.Forall₂ (fun kv kw => kv.1 = kw.1 ∧ kv.2.created = kw.2.created ∧
        kv.2.enabled = kw.2.enabled) s s2 →
      list_accounts s = list_accounts s2) := by
  refine ⟨by simp [list_accounts], ?_, ?_⟩
  · intro i h
    simp [list_accounts]
  · intro h
    induction h with
    | nil => rfl
    | cons hrel htail ih =>
      obtain ⟨h1, h2, h3⟩ := hrel
      simp only [list_accounts, List.map_cons] at ih ⊢
      rw [h1, h2, h3, ih]

theorem c9_witness :
    list_accounts [(cp "u1", ⟨cp "saltA", cp "hashA", cp "t", true⟩)] =
      list_accounts [(cp "u1", ⟨cp "saltB", cp "hashB", cp "t", true⟩)] :=
  (c9_list_accounts_spec _ _).2.2
    (List.Forall₂.cons ⟨rfl, rfl, rfl⟩ List.Forall₂.nil)

/-- C10: each mutating store operation leaves every other username's
record unchanged. -/
theorem c10_frame_effect (H : HashFns) (s : Store)
    (u v p salt created : List Nat) (hne : v ≠ u) :
    slookup v (add_account H s u p salt created).2 = slookup v s ∧
    slookup v (delete_account s u).2 = slookup v s ∧
    slookup v (toggle_account s u).2 = slookup v s := by
  refine ⟨?_, ?_, ?_⟩
  · by_cases h1 : (u = [] ∨ p = [])
    · simp [add_account, h1]
    · by_cases h2 : u.length < 3
      · simp [add_account, h1, h2]
      · by_cases h3 : p.length < 6
        · simp [add_account, h1, h2, h3]
        · by_cases h4 : (slookup u s).isSome = true
          · simp [add_account, h1, h2, h3, h4]
          · have h4f : (slookup u s).isSome = false := by
              simpa using h4
            have h6 : (add_account H s u p salt created).2 =
                s ++ [(u, ⟨salt, hash_password H p salt, created, true⟩)] := by
              simp [add_account, h1, h2, h3, h4f]
            rw [h6]
            exact slookup_append_other s u v _ hne
  · by_cases h : (slookup u s).isSome = true
    · have h6 : (delete_account s u).2 =
          s.filter (fun kv => !decide (kv.1 = u)) := by
        simp [delete_account, h]
      rw [h6]
      exact slookup_filter_ne s u v hne
    · have hf : (slookup u s).isSome = false := by simpa using h
      simp [delete_account, hf]
  · cases ha : slookup u s with
    | none => simp [toggle_account, ha]
    | some a =>
      have h6 : (toggle_account s u).2 = s.map (fun kv =>
          if kv.1 = u then (kv.1, { kv.2 with enabled := !a.enabled })
          else kv) := by
        simp [toggle_account, ha]
      rw [h6]
      exact slookup_map_update s u v (!a.enabled) hne

theorem c10_witness :
    slookup (cp "bob")
      (delete_account [(cp "bob", ⟨cp "s", cp "h", cp "t", true⟩)]
        (cp "alice")).2 =
      slookup (cp "bob") [(cp "bob", ⟨cp "s", cp "h", cp "t", true⟩)] :=
  (c10_frame_effect idHash [(cp "bob", ⟨cp "s", cp "h", cp "t", true⟩)]
    (cp "alice") (cp "bob") (cp "p") (cp "salt") (cp "t")
    (by decide)).2.1

theorem utf8Encode_ne_nil (s : List Nat) (h : s ≠ []) :
    utf8Encode s ≠ [] := by
  cases s with
  | nil => exact absurd rfl h
  | cons c r =>
    simp only [utf8Encode, List.flatMap_cons]
    intro hc
    rcases List.append_eq_nil.mp hc with ⟨h1, _⟩
    exact utf8EncodeChar_ne_nil c h1

theorem b64vals_ne_nil (bs : List Nat) (h : bs ≠ []) : b64vals bs ≠ [] := by
  match bs with
  | [] => exact absurd rfl h
  | [b1] => simp [b64vals]
  | [b1, b2] => simp [b64vals]
  | b1 :: b2 :: b3 :: r => simp [b64vals]

theorem b64encode_ne_nil (bs : List Nat) (h : bs ≠ []) :
    b64encode bs ≠ [] := by
  simp only [b64encode]
  intro hc
  rcases List.append_eq_nil.mp hc with ⟨h1, _⟩
  exact b64vals_ne_nil bs h (by simpa using h1)

theorem xorObf_ne_nil (bs : List Nat) (h : bs ≠ []) : xorObf bs ≠ [] := by
  cases bs with
  | nil => exact absurd rfl h
  | cons b r => simp [xorObf, xorObfFrom]

theorem encrypt_ne_nil (H : HashFns) (x : Json) : encrypt_data H x ≠ [] := by
  obtain ⟨c, cs, hcs, _⟩ := dumps_cons (fullData x (create_signature H (dumps x)))
  apply b64encode_ne_nil
  apply xorObf_ne_nil
  apply b64encode_ne_nil
  apply utf8Encode_ne_nil
  rw [hcs]
  simp

theorem tokenJson_wf (u issued : List Nat) (hu : strOK u = true)
    (hiss : strOK issued = true) : jsonWF (tokenJson u issued) = true := by
  have d1 : ¬cp "issued" = cp "username" := by decide
  have d2 : ¬cp "valid" = cp "username" := by decide
  have d3 : ¬cp "valid" = cp "issued" := by decide
  simp [tokenJson, jsonWF, jsonObjWF, objKeysNodupB, keyMem,
    d1, d2, d3, hu, hiss]
  refine ⟨by decide, by decide, by decide⟩

theorem api_verify_true (H : HashFns) (s : Store) (u p issued : List Nat)
    (h : (api_verify H s u p issued).1 = true) :
    api_verify H s u p issued =
      (true, msgVerifyOk, encrypt_data H (tokenJson u issued)) := by
  by_cases h1 : (u = [] ∨ p = [])
  · simp [api_verify, h1] at h
  · cases ha : slookup u s with
    | none => simp [api_verify, h1, ha] at h
    | some a =>
      by_cases he : a.enabled = true
      · by_cases hw : hash_password H p a.salt = a.password_hash
        · simp [api_verify, h1, ha, he, hw]
        · simp [api_verify, h1, ha, he, hw] at h
      · simp [api_verify, h1, ha, he] at h

/-- C6 (amended): for every nonempty token, `/api/validate_token`
answers the token-invalid message when envelope decoding fails or
yields a falsy payload, and otherwise re-checks the recovered username
against the live store — success exactly when that account currently
exists and is enabled, the token's internal `valid` flag never being
consulted; a token minted by `/api/verify` is therefore accepted or
rejected according to the store state at validation time.  The empty
token draws the distinct empty-token message, not the token-invalid
one. -/
theorem c6_validate_token_spec (H : HashFns) (s : Store) (t : List Nat) :
    (validate_token H s [] = some (false, msgTokenEmpty)) ∧
    (t ≠ [] → decrypt_data H t = none →
      validate_token H s t = some (false, msgTokenInvalid)) ∧
    (∀ d, t ≠ [] → decrypt_data H t = some d → jsonTruthy d = false →
      validate_token H s t = some (false, msgTokenInvalid)) ∧
    (∀ kvs uv, t ≠ [] → decrypt_data H t = some (Json.obj kvs) →
      kvs.lookup (cp "username") = some (Json.str uv) →
      validate_token H s t = some (tokenCheck s uv)) ∧
    (∀ u2, ((tokenCheck s u2).1 = true ↔
      ∃ a, slookup u2 s = some a ∧ a.enabled = true)) ∧
    (∀ (u p issued : List Nat) (s2 : Store), strOK u = true →
      strOK issued = true → (api_verify H s u p issued).1 = true →
      validate_token H s2 (api_verify H s u p issued).2.2 =
        some (tokenCheck s2 u)) ∧
    msgTokenEmpty ≠ msgTokenInvalid := by
  refine ⟨by simp [validate_token], ?_, ?_, ?_, ?_, ?_, by decide⟩
  · intro ht hd
    simp [validate_token, ht, hd]
  · intro d ht hd hf
    simp [validate_token, ht, hd, hf]
  · intro kvs uv ht hd hu
    cases kvs with
    | nil => simp [JsonObj.lookup] at hu
    | cons k v rest =>
      simp [validate_token, ht, hd, hu, jsonTruthy]
  · intro u2
    constructor
    · intro h
      cases ha : slookup u2 s with
      | none => simp [tokenCheck, ha] at h
      | some a =>
        refine ⟨a, rfl, ?_⟩
        by_cases he : a.enabled = true
        · exact he
        · simp [tokenCheck, ha, he] at h
    · rintro ⟨a, ha, he⟩
      simp [tokenCheck, ha, he]
  · intro u p issued s2 hu hiss h
    have hav := api_verify_true H s u p issued h
    rw [hav]
    simp only []
    have hwf := tokenJson_wf u issued hu hiss
    have hdec := decrypt_encrypt H (tokenJson u issued) hwf
    have hne := encrypt_ne_nil H (tokenJson u issued)
    rw [validate_token.eq_def]
    rw [if_neg hne]
    rw [hdec]
    simp [tokenJson, jsonTruthy, JsonObj.lookup]

theorem c6_counterexample :
    decrypt_data idHash [] = none ∧
    validate_token idHash [] [] = some (false, msgTokenEmpty) ∧
    msgTokenEmpty ≠ msgTokenInvalid :=
  ⟨by decide, by decide, by decide⟩

theorem c6_witness :
    validate_token idHash [] [1] = some (false, msgTokenInvalid) ∧
    validate_token idHash [] (encrypt_data idHash (Json.obj .nil)) =
      some (false, msgTokenInvalid) :=
  ⟨(c6_validate_token_spec idHash [] [1]).2.1 (by decide) (by decide),
   (c6_validate_token_spec idHash []
      (encrypt_data idHash (Json.obj .nil))).2.2.1 (Json.obj .nil)
      (by decide) (by decide) (by decide)⟩

/-- A modification of exactly one byte. -/
def singleByteMod (s t : List Nat) : Prop :=
  s.length = t.length ∧
    ((s.zip t).countP (fun q => !decide (q.1 = q.2))) = 1

/-- C7 counterexample: changing one byte of an envelope need not make
decoding fail — the final base64 symbol carries unused trailing bits
that `base64.b64decode` discards, so the altered envelope still decodes,
and to the original payload (no signature collision is involved: the
decoded bytes are identical).  Position 58 of this 60-character envelope
changes from `I` to `J`. -/
theorem c7_counterexample :
    singleByteMod (encrypt_data idHash (Json.obj .nil))
      ((encrypt_data idHash (Json.obj .nil)).set 58 74) ∧
    (encrypt_data idHash (Json.obj .nil)).set 58 74 ≠
      encrypt_data idHash (Json.obj .nil) ∧
    decrypt_data idHash ((encrypt_data idHash (Json.obj .nil)).set 58 74) =
      some (Json.obj .nil) := by
  refine ⟨⟨by decide, by decide⟩, by decide, by decide⟩

/-- C7 (amended): decoding never returns a payload that was not signed —
whenever `decrypt_data` returns a payload, the decoded envelope is an
object whose `data` field is that payload and whose embedded `signature`
field is exactly the recomputed signature of the payload's serialized
form.  (The "any single-byte change makes decoding fail" half of the
original claim is refuted by `c7_counterexample`.) -/
theorem c7_decode_only_signed (H : HashFns) (t : List Nat) (y : Json)
    (h : decrypt_data H t = some y) :
    ∃ kvs, envelopeInner t = some (Json.obj kvs) ∧
      kvs.lookup (cp "data") = some y ∧
      kvs.lookup (cp "signature") =
        some (Json.str (create_signature H (dumps y))) := by
  unfold decrypt_data at h
  cases henv : envelopeInner t with
  | none => rw [henv] at h; simp at h
  | some j =>
    rw [henv] at h
    cases j with
    | obj kvs =>
      simp only [] at h
      refine ⟨kvs, rfl, ?_⟩
      cases hd : kvs.lookup (cp "data") with
      | none => rw [hd] at h; simp at h
      | some d =>
        cases hsg : kvs.lookup (cp "signature") with
        | none => rw [hd, hsg] at h; simp at h
        | some sv =>
          rw [hd, hsg] at h
          cases sv with
          | str sig =>
            simp only [] at h
            by_cases hv : verify_signature H (dumps d) sig = true
            · rw [if_pos hv] at h
              have hdy : d = y := by
                simpa using h
              subst hdy
              simp only [verify_signature, decide_eq_true_eq] at hv
              exact ⟨rfl, by rw [hv]⟩
            · rw [if_neg hv] at h
              simp at h
          | null => simp at h
          | bool b => simp at h
          | num n => simp at h
          | arr xs => simp at h
          | obj o => simp at h
    | null => simp at h
    | bool b => simp at h
    | num n => simp at h
    | str ss => simp at h
    | arr xs => simp at h

theorem c7_witness :
    ∃ kvs, envelopeInner (encrypt_data idHash (Json.obj .nil)) =
      some (Json.obj kvs) ∧
      kvs.lookup (cp "data") = some (Json.obj .nil) ∧
      kvs.lookup (cp "signature") =
        some (Json.str (create_signature idHash (dumps (Json.obj .nil)))) :=
  c7_decode_only_signed idHash _ _
    (decrypt_encrypt idHash (Json.obj .nil) (by decide))

/-- C8 (amended): neither load routine can raise (both are total).  The
server-side `load_accounts` yields the empty mapping when the file is
absent or decoding fails, and the decoded `accounts` mapping otherwise.
The `AccountManager` variant instead leaves the previous in-memory
mapping in place when the file is absent or `decrypt_data` returns
`None` (or a falsy value) — the mapping is empty in practice only
because the method is called from the constructor, where
`self.accounts = {}`. -/
theorem c8_load_accounts_spec (H : HashFns) (bs : List Nat) (prev : Json) :
    (load_accounts_server H none = Json.obj .nil) ∧
    (decrypt_data H bs = none →
      load_accounts_server H (some bs) = Json.obj .nil) ∧
    (∀ kvs, decrypt_data H bs = some (Json.obj kvs) →
      load_accounts_server H (some bs) =
        kvs.getD (cp "accounts") (Json.obj .nil)) ∧
    (load_accounts_auth H none prev = prev) ∧
    (decrypt_data H bs = none →
      load_accounts_auth H (some bs) prev = prev) ∧
    (∀ kvs, decrypt_data H bs = some (Json.obj kvs) → kvs ≠ .nil →
      load_accounts_auth H (some bs) prev =
        kvs.getD (cp "accounts") (Json.obj .nil)) ∧
    (decrypt_data H bs = some (Json.obj .nil) →
      load_accounts_auth H (some bs) prev = prev) := by
  refine ⟨rfl, ?_, ?_, rfl, ?_, ?_, ?_⟩
  · intro h
    simp [load_accounts_server, h]
  · intro kvs h
    cases kvs with
    | nil => simp [load_accounts_server, h, jsonTruthy, JsonObj.getD,
        JsonObj.lookup]
    | cons k v kvs => simp [load_accounts_server, h, jsonTruthy]
  · intro h
    simp [load_accounts_auth, h]
  · intro kvs h hne
    cases kvs with
    | nil => exact absurd rfl hne
    | cons k v kvs => simp [load_accounts_auth, h, jsonTruthy]
  · intro h
    simp [load_accounts_auth, h, jsonTruthy]

/-- C8 counterexample: with the persistence file absent,
`AccountManager.load_accounts` does not clear a non-empty prior
in-memory mapping, contradicting the claim's "empty mapping afterwards
for every prior in-memory state". -/
theorem c8_counterexample :
    load_accounts_auth idHash none
        (Json.obj (.cons (cp "alice") Json.null .nil)) =
      Json.obj (.cons (cp "alice") Json.null .nil) ∧
    Json.obj (.cons (cp "alice") Json.null .nil) ≠ Json.obj .nil :=
  ⟨rfl, by decide⟩

theorem c8_witness :
    load_accounts_auth idHash (some [1]) Json.null = Json.null :=
  (c8_load_accounts_spec idHash [1] Json.null).2.2.2.2.1 (by decide)

end SaveAny
